import Mathlib

/-
Formal model of the glueson expression-resolution engine (src/index.ts of the
glueson repository).

Modelling conventions:
- JavaScript values flowing through the resolver are modelled by the inductive
  type `Glueson`: strings, numbers (modelled as `Int`; the claims under study
  do not depend on non-integer numerics), booleans, `null`, `undefined`,
  arrays, and objects (ordered association lists of string keys).
- Asynchronous effectful code is modelled by explicit state passing or by an
  oracle function plus a fuel parameter: executing one expression node
  (`parseExpression` followed by `executeGluesonExpression` in the source) is
  abstracted as an oracle `exec : Glueson → Option Glueson`, where `none`
  models a thrown validation error, a fatal executor failure, or any other
  abort of the whole resolution.  `Option` results propagate failure exactly
  as an uncaught exception aborts the source program.
- Fuel bounds the number of expression-execution steps and the recursion
  depth of the tree walk; a run of the source program that terminates
  corresponds to a fuel value large enough, and `none` by fuel exhaustion
  models divergence.
-/

/-- A JavaScript/JSON value as the resolver sees it (`type Glueson` in the
source, extended with `null`/`undefined` which the source handles
explicitly). Objects are ordered lists of key/value pairs, mirroring JS
object insertion order. -/
inductive Glueson where
  | str (s : String)
  | num (n : Int)
  | bool (b : Bool)
  | null
  | undef
  | arr (items : List Glueson)
  | obj (fields : List (String × Glueson))

mutual

/-- Decidable equality for `Glueson` (written by hand because `deriving`
does not handle the nested `List` occurrences). -/
def Glueson.decEq : (x y : Glueson) → Decidable (x = y)
  | .str s, .str t =>
    match String.decEq s t with
    | isTrue h => isTrue (by rw [h])
    | isFalse h => isFalse (fun hh => h (Glueson.str.inj hh))
  | .num n, .num m =>
    match Int.decEq n m with
    | isTrue h => isTrue (by rw [h])
    | isFalse h => isFalse (fun hh => h (Glueson.num.inj hh))
  | .bool b, .bool c =>
    match Bool.decEq b c with
    | isTrue h => isTrue (by rw [h])
    | isFalse h => isFalse (fun hh => h (Glueson.bool.inj hh))
  | .null, .null => isTrue rfl
  | .undef, .undef => isTrue rfl
  | .arr xs, .arr ys =>
    match Glueson.decEqList xs ys with
    | isTrue h => isTrue (by rw [h])
    | isFalse h => isFalse (fun hh => h (Glueson.arr.inj hh))
  | .obj fs, .obj gs =>
    match Glueson.decEqFields fs gs with
    | isTrue h => isTrue (by rw [h])
    | isFalse h => isFalse (fun hh => h (Glueson.obj.inj hh))
  | .str _, .num _ => isFalse (fun h => nomatch h)
  | .str _, .bool _ => isFalse (fun h => nomatch h)
  | .str _, .null => isFalse (fun h => nomatch h)
  | .str _, .undef => isFalse (fun h => nomatch h)
  | .str _, .arr _ => isFalse (fun h => nomatch h)
  | .str _, .obj _ => isFalse (fun h => nomatch h)
  | .num _, .str _ => isFalse (fun h => nomatch h)
  | .num _, .bool _ => isFalse (fun h => nomatch h)
  | .num _, .null => isFalse (fun h => nomatch h)
  | .num _, .undef => isFalse (fun h => nomatch h)
  | .num _, .arr _ => isFalse (fun h => nomatch h)
  | .num _, .obj _ => isFalse (fun h => nomatch h)
  | .bool _, .str _ => isFalse (fun h => nomatch h)
  | .bool _, .num _ => isFalse (fun h => nomatch h)
  | .bool _, .null => isFalse (fun h => nomatch h)
  | .bool _, .undef => isFalse (fun h => nomatch h)
  | .bool _, .arr _ => isFalse (fun h => nomatch h)
  | .bool _, .obj _ => isFalse (fun h => nomatch h)
  | .null, .str _ => isFalse (fun h => nomatch h)
  | .null, .num _ => isFalse (fun h => nomatch h)
  | .null, .bool _ => isFalse (fun h => nomatch h)
  | .null, .undef => isFalse (fun h => nomatch h)
  | .null, .arr _ => isFalse (fun h => nomatch h)
  | .null, .obj _ => isFalse (fun h => nomatch h)
  | .undef, .str _ => isFalse (fun h => nomatch h)
  | .undef, .num _ => isFalse (fun h => nomatch h)
  | .undef, .bool _ => isFalse (fun h => nomatch h)
  | .undef, .null => isFalse (fun h => nomatch h)
  | .undef, .arr _ => isFalse (fun h => nomatch h)
  | .undef, .obj _ => isFalse (fun h => nomatch h)
  | .arr _, .str _ => isFalse (fun h => nomatch h)
  | .arr _, .num _ => isFalse (fun h => nomatch h)
  | .arr _, .bool _ => isFalse (fun h => nomatch h)
  | .arr _, .null => isFalse (fun h => nomatch h)
  | .arr _, .undef => isFalse (fun h => nomatch h)
  | .arr _, .obj _ => isFalse (fun h => nomatch h)
  | .obj _, .str _ => isFalse (fun h => nomatch h)
  | .obj _, .num _ => isFalse (fun h => nomatch h)
  | .obj _, .bool _ => isFalse (fun h => nomatch h)
  | .obj _, .null => isFalse (fun h => nomatch h)
  | .obj _, .undef => isFalse (fun h => nomatch h)
  | .obj _, .arr _ => isFalse (fun h => nomatch h)

/-- Decidable equality on lists of values. -/
def Glueson.decEqList : (xs ys : List Glueson) → Decidable (xs = ys)
  | [], [] => isTrue rfl
  | [], _ :: _ => isFalse (fun h => nomatch h)
  | _ :: _, [] => isFalse (fun h => nomatch h)
  | x :: xs, y :: ys =>
    match Glueson.decEq x y with
    | isFalse h => isFalse (fun hh => h (List.cons.inj hh).1)
    | isTrue h1 =>
      match Glueson.decEqList xs ys with
      | isTrue h2 => isTrue (by rw [h1, h2])
      | isFalse h => isFalse (fun hh => h (List.cons.inj hh).2)

/-- Decidable equality on object field lists. -/
def Glueson.decEqFields : (fs gs : List (String × Glueson)) → Decidable (fs = gs)
  | [], [] => isTrue rfl
  | [], _ :: _ => isFalse (fun h => nomatch h)
  | _ :: _, [] => isFalse (fun h => nomatch h)
  | (k, v) :: fs, (l, w) :: gs =>
    match String.decEq k l with
    | isFalse h => isFalse (fun hh => h (congrArg Prod.fst (List.cons.inj hh).1))
    | isTrue hk =>
      match Glueson.decEq v w with
      | isFalse h => isFalse (fun hh => h (congrArg Prod.snd (List.cons.inj hh).1))
      | isTrue hv =>
        match Glueson.decEqFields fs gs with
        | isTrue ht => isTrue (by rw [hk, hv, ht])
        | isFalse h => isFalse (fun hh => h (List.cons.inj hh).2)

end

instance : DecidableEq Glueson := Glueson.decEq

/-- Source `isBaseType` (line 159): true exactly on strings, numbers and
booleans. -/
def isBaseType : Glueson → Bool
  | .str _ => true
  | .num _ => true
  | .bool _ => true
  | _ => false

/-- Whether an object field list carries the reserved discriminator key. -/
def hasGluesonKey (fields : List (String × Glueson)) : Bool :=
  fields.any (fun p => p.1 == "_glueson")

/-- Source `isExpression` (line 164): a non-null object (in JS, arrays are
objects but never carry a `"_glueson"` own property from JSON input, and the
`in` test on an array is false for this key) containing the `"_glueson"`
key. -/
def isExpression : Glueson → Bool
  | .obj fields => hasGluesonKey fields
  | _ => false

mutual

/-- No mapping at any depth carries the `"_glueson"` key: the value contains
no expression node. -/
def noExpr : Glueson → Bool
  | .str _ => true
  | .num _ => true
  | .bool _ => true
  | .null => true
  | .undef => true
  | .arr items => noExprList items
  | .obj fields => !hasGluesonKey fields && noExprFields fields

/-- `noExpr` on every element. -/
def noExprList : List Glueson → Bool
  | [] => true
  | x :: xs => noExpr x && noExprList xs

/-- `noExpr` on every field value. -/
def noExprFields : List (String × Glueson) → Bool
  | [] => true
  | (_, v) :: fs => noExpr v && noExprFields fs

end

mutual

/-- Nesting depth of a value (leaves have depth 0, containers one more than
their deepest child; an empty container has depth 1).  Used only to state
fuel-sufficiency hypotheses for the fueled tree walk. -/
def depth : Glueson → Nat
  | .str _ => 0
  | .num _ => 0
  | .bool _ => 0
  | .null => 0
  | .undef => 0
  | .arr items => depthList items + 1
  | .obj fields => depthFields fields + 1

/-- Maximum `depth` over a list. -/
def depthList : List Glueson → Nat
  | [] => 0
  | x :: xs => max (depth x) (depthList xs)

/-- Maximum `depth` over field values. -/
def depthFields : List (String × Glueson) → Nat
  | [] => 0
  | (_, v) :: fs => max (depth v) (depthFields fs)

end

/-- Source `resolveValue` (lines 239-248): while the node is an expression
node, validate and execute it (both abstracted into the oracle `exec`, whose
`none` models a validation error or fatal execution failure) and replace the
node by the result.  Each loop iteration consumes one unit of fuel; fuel
exhaustion (`none`) models a run that does not terminate within the given
bound. -/
def resolveValue (exec : Glueson → Option Glueson) : Nat → Glueson → Option Glueson
  | fuel, g =>
    if isExpression g then
      match fuel with
      | 0 => none
      | fuel + 1 =>
        match exec g with
        | none => none
        | some g2 => resolveValue exec fuel g2
    else
      some g

mutual

/-- Source `resolveGlueson` (lines 175-194): call `resolveValue`; return
primitives, `null` and `undefined` as is; resolve array elements and object
field values recursively (keys untouched, order preserved).  The source
dispatches all sibling resolutions concurrently and reassembles them in
order; the single-threaded event loop makes the result equal to this
in-order traversal. -/
def resolveGlueson (exec : Glueson → Option Glueson) : Nat → Glueson → Option Glueson
  | 0, _ => none
  | fuel + 1, g =>
    match resolveValue exec (fuel + 1) g with
    | none => none
    | some (.str s) => some (.str s)
    | some (.num n) => some (.num n)
    | some (.bool b) => some (.bool b)
    | some .null => some .null
    | some .undef => some .undef
    | some (.arr items) =>
      match resolveList exec fuel items with
      | none => none
      | some rs => some (.arr rs)
    | some (.obj fields) =>
      match resolveFields exec fuel fields with
      | none => none
      | some rfs => some (.obj rfs)
  termination_by fuel _ => (fuel, 0)

/-- Elementwise `resolveGlueson` over an array's items. -/
def resolveList (exec : Glueson → Option Glueson) : Nat → List Glueson → Option (List Glueson)
  | _, [] => some []
  | fuel, x :: xs =>
    match resolveGlueson exec fuel x with
    | none => none
    | some r =>
      match resolveList exec fuel xs with
      | none => none
      | some rs => some (r :: rs)
  termination_by fuel l => (fuel, l.length + 1)

/-- Valuewise `resolveGlueson` over an object's fields (keys untouched). -/
def resolveFields (exec : Glueson → Option Glueson) :
    Nat → List (String × Glueson) → Option (List (String × Glueson))
  | _, [] => some []
  | fuel, (k, v) :: fs =>
    match resolveGlueson exec fuel v with
    | none => none
    | some r =>
      match resolveFields exec fuel fs with
      | none => none
      | some rs => some ((k, r) :: rs)
  termination_by fuel l => (fuel, l.length + 1)

end

/-- A sample oracle refusing every execution: with it, any successful
resolution certifies that no expression node was ever executed. -/
def noExec : Glueson → Option Glueson := fun _ => none

/-- Association lookup in the cache map (source `cache.get(hash)`,
line 218).  The cache maps a fingerprint string to the promise created for
it; promises are modelled by the natural number identifiers under which they
were allocated, so "both callers get the same promise, hence observe the
same eventual result or failure" becomes "both callers get the same
identifier". -/
def cacheLookup : List (String × Nat) → String → Option Nat
  | [], _ => none
  | (f, id) :: rest, fp => if f == fp then some id else cacheLookup rest fp

/-- Observation produced by one call of the cached wrapper. -/
structure CacheCallResult where
  promise : Nat
  state : List (String × Nat)
  nextId : Nat
  invoked : Bool

/-- Source `cached` wrapper (lines 213-225), one call: look the fingerprint
up; on a hit return the stored promise without invoking the producer; on a
miss invoke the producer — modelled by allocating the next fresh promise
identifier — store the promise under the fingerprint, and return it.  In the
source the lookup, the synchronous start of `fn(expression)` and the
`cache.set` all happen between two suspension points of the single-threaded
event loop (the wrapper is not `async` and contains no `await`), so one
wrapper call is atomic: every interleaving of concurrent resolutions is some
sequence of these atomic calls. -/
def cachedCall (state : List (String × Nat)) (nextId : Nat) (fp : String) : CacheCallResult :=
  match cacheLookup state fp with
  | some id => ⟨id, state, nextId, false⟩
  | none => ⟨nextId, (fp, nextId) :: state, nextId + 1, true⟩

/-- Run a sequence of cache calls, threading the cache state and the fresh
promise counter; the result records, per call, the fingerprint requested,
the promise observed, and whether the producer was invoked by this call. -/
def runCachedCalls : List String → List (String × Nat) → Nat → List (String × Nat × Bool)
  | [], _, _ => []
  | fp :: rest, state, nextId =>
    let r := cachedCall state nextId fp
    (fp, r.promise, r.invoked) :: runCachedCalls rest r.state r.nextId

/-- Number of observations in a cache-call run that requested the given
fingerprint and invoked the producer. -/
def invokedCount (obs : List (String × Nat × Bool)) (fp : String) : Nat :=
  (obs.filter (fun o => o.1 == fp && o.2.2)).length

/-- A value of the `params` mapping handed to the subprocess runner
(TypeScript type `Record<string, string | string[]>` of `runCommand`): a
scalar string or a sequence of strings; `typeof input === "object"` in
`prepareArgs` distinguishes the sequence case. -/
inductive ParamValue where
  | scalar (s : String)
  | seq (xs : List String)

instance : DecidableEq ParamValue := fun x y =>
  match x, y with
  | .scalar s, .scalar t =>
    match String.decEq s t with
    | isTrue h => isTrue (by rw [h])
    | isFalse h => isFalse (fun hh => h (ParamValue.scalar.inj hh))
  | .seq xs, .seq ys =>
    match decEq xs ys with
    | isTrue h => isTrue (by rw [h])
    | isFalse h => isFalse (fun hh => h (ParamValue.seq.inj hh))
  | .scalar _, .seq _ => isFalse (fun h => nomatch h)
  | .seq _, .scalar _ => isFalse (fun h => nomatch h)

/-- Split a character list on a separator character, JavaScript
`String.prototype.split` style: `""` splits to `[""]`, and consecutive
separators produce empty tokens. -/
def splitOnChar (sep : Char) : List Char → List (List Char)
  | [] => [[]]
  | c :: rest =>
    match splitOnChar sep rest with
    | [] => [[c]]
    | g :: gs => if c == sep then [] :: g :: gs else (c :: g) :: gs

/-- Model of the JavaScript `split` on a one-character separator, as used by
`command.split(" ")` and `path.split(".")` in the source. -/
def splitString (sep : Char) (s : String) : List String :=
  (splitOnChar sep s.data).map String.mk

/-- Model of `arg.startsWith("$")` (source line 401). -/
def startsWithDollar (t : String) : Bool :=
  match t.data with
  | [] => false
  | c :: _ => c == '$'

/-- Model of `arg.slice(1)` (source line 402): the string without its first
character. -/
def sliceOne (t : String) : String := String.mk t.data.tail

/-- Property lookup in the parameter mapping (source `inputs[arg.slice(1)]`,
line 402): `none` models the JavaScript `undefined`. -/
def lookupParam : List (String × ParamValue) → String → Option ParamValue
  | [], _ => none
  | (k, v) :: rest, name => if k == name then some v else lookupParam rest name

/-- One token of the command template, as handled by the `flatMap` callback
of source `prepareArgs` (lines 400-406): a token starting with `"$"` is
looked up under its remaining characters — absence is the thrown
`missing input` error, a sequence spreads into its elements and a scalar
into a singleton — and any other token passes through as one argument. -/
def expandArg (inputs : List (String × ParamValue)) (arg : String) : Except String (List String) :=
  if startsWithDollar arg then
    match lookupParam inputs (sliceOne arg) with
    | none => .error ("missing input " ++ arg)
    | some (.seq xs) => .ok xs
    | some (.scalar s) => .ok [s]
  else
    .ok [arg]

/-- Left-to-right `flatMap` with the first thrown error aborting, as the
JavaScript callback does. -/
def expandArgs (inputs : List (String × ParamValue)) : List String → Except String (List String)
  | [] => .ok []
  | a :: as =>
    match expandArg inputs a with
    | .error e => .error e
    | .ok xs =>
      match expandArgs inputs as with
      | .error e => .error e
      | .ok ys => .ok (xs ++ ys)

/-- Source `prepareArgs` (lines 393-407): split the command template on
single spaces, drop empty tokens, and expand each token through the
parameter mapping. -/
def prepareArgs (command : String) (inputs : List (String × ParamValue)) :
    Except String (List String) :=
  expandArgs inputs ((splitString ' ' command).filter (fun arg => arg.length > 0))

/-- Modelled from the claim's words for comparison with `prepareArgs`
(refinement pair): walk the whitespace-delimited tokens of the template one
by one; a token beginning with `"$"` is replaced by the mapping value looked
up under the token's remaining characters, a sequence value contributing as
many argument positions as it has elements and a scalar value exactly one
position; a `"$"`-token whose name is absent from the mapping is a fatal
error; every other token is passed through as one argument. -/
def specExpandTokens (inputs : List (String × ParamValue)) : List String → Except String (List String)
  | [] => .ok []
  | t :: ts =>
    if startsWithDollar t then
      match lookupParam inputs (sliceOne t) with
      | some (.seq xs) => (specExpandTokens inputs ts).map (fun rest => xs ++ rest)
      | some (.scalar s) => (specExpandTokens inputs ts).map (fun rest => s :: rest)
      | none => .error ("missing input " ++ t)
    else
      (specExpandTokens inputs ts).map (fun rest => t :: rest)

/-- The claim's description of argument construction, applied to the
template's nonempty whitespace-delimited tokens. -/
def prepareArgsSpec (command : String) (inputs : List (String × ParamValue)) :
    Except String (List String) :=
  specExpandTokens inputs ((splitString ' ' command).filter (fun arg => arg.length > 0))

/-- JavaScript property read on an object: an absent key yields
`undefined`. -/
def objIndex (fields : List (String × Glueson)) (key : String) : Glueson :=
  match fields.find? (fun p => p.1 == key) with
  | some p => p.2
  | none => (.undef)

/-- JavaScript property read on an array by a string key: `"length"` yields
the length, a canonical numeric string yields the element (or `undefined`
out of bounds), anything else `undefined`.  (Non-canonical numeric strings
such as `"01"` are approximated by their numeric reading; no claim under
study indexes arrays.) -/
def arrIndex (items : List Glueson) (key : String) : Glueson :=
  if key == "length" then .num items.length
  else
    match key.toNat? with
    | some i => (items.get? i).getD .undef
    | none => (.undef)

/-- The body of the `for` loop of source `executeGetExpression`
(lines 413-417): `typeof result !== "object"` throws the
`cannot get property _ of non-object` error (so primitives and `undefined`
throw), `null` passes the `typeof` test and then crashes the process with a
`TypeError` when indexed (modelled as an error value as well — both abort
the run), and objects/arrays are indexed raw. -/
def jsProperty (result : Glueson) (property : String) : Except String Glueson :=
  match result with
  | .null => .error ("TypeError: cannot read properties of null (reading " ++ property ++ ")")
  | .arr items => .ok (arrIndex items property)
  | .obj fields => .ok (objIndex fields property)
  | _ => .error ("cannot get property " ++ property ++ " of non-object")

/-- Source `executeGetExpression` (lines 409-419): split `path` on `"."` and
fold the loop body over the segments, starting from the raw, unresolved
`input`. -/
def executeGetExpression (path : String) (input : Glueson) : Except String Glueson :=
  (splitString '.' path).foldlM jsProperty input

/-- The amended description of the `get` executor as a direct recursion, for
comparison with `executeGetExpression` (refinement pair): index into the
raw input segment by segment, never resolving intermediate nodes; indexing a
non-structural node is a fatal error naming the offending segment. -/
def rawGetWalk : List String → Glueson → Except String Glueson
  | [], current => .ok current
  | seg :: rest, current =>
    match current with
    | .obj fields => rawGetWalk rest (objIndex fields seg)
    | .arr items => rawGetWalk rest (arrIndex items seg)
    | .null => .error ("TypeError: cannot read properties of null (reading " ++ seg ++ ")")
    | _ => .error ("cannot get property " ++ seg ++ " of non-object")

/-- Source `getValue` (lines 250-258), the `get` capability handed to
code-evaluation: resolve the current node (executing it if it is an
expression node), then index it by the next path segment, then repeat;
the final value is resolved as well.  `none` models fuel exhaustion of the
underlying `resolveValue`, `some (.error _)` a thrown error, and
`some (.ok v)` the returned value. -/
def getValue (exec : Glueson → Option Glueson) (fuel : Nat) :
    Glueson → List String → Option (Except String Glueson)
  | g, path =>
    match resolveValue exec fuel g with
    | none => none
    | some value =>
      match path with
      | [] => some (.ok value)
      | key :: rest =>
        match value with
        | .null =>
          some (.error ("TypeError: cannot read properties of null (reading " ++ key ++ ")"))
        | .arr items => getValue exec fuel (arrIndex items key) rest
        | .obj fields => getValue exec fuel (objIndex fields key) rest
        | _ => some (.error ("cannot get property " ++ key ++ " of non-object"))

/-- The concrete `parse` expression node used in the `get`-executor
counterexample: `{"_glueson":"parse","input":"{\"b\":\"x\"}"}`. -/
def parseNodeExample : Glueson :=
  .obj [("_glueson", .str "parse"), ("input", .str "\x7b\"b\":\"x\"\x7d")]

/-- A concrete oracle executing exactly `parseNodeExample` (to the parsed
object `{"b":"x"}`), refusing everything else. -/
def parseOracleExample : Glueson → Option Glueson := fun g =>
  if g = parseNodeExample then some (.obj [("b", .str "x")]) else none

/-- The decimal digit character for `n < 10`. -/
def digitChar : Nat → Char
  | 0 => '0'
  | 1 => '1'
  | 2 => '2'
  | 3 => '3'
  | 4 => '4'
  | 5 => '5'
  | 6 => '6'
  | 7 => '7'
  | 8 => '8'
  | 9 => '9'
  | _ => '*'

/-- Whether a character is a decimal digit. -/
def isDigitCh (c : Char) : Bool := 48 ≤ c.toNat && c.toNat ≤ 57

/-- The numeric value of a most-significant-first digit string. -/
def digitsVal (l : List Char) : Nat :=
  l.foldl (fun acc c => acc * 10 + (c.toNat - 48)) 0

/-- Decimal digits of a natural number, most significant first, with an
explicit fuel so the definition is structural (the fuel `n + 1` always
suffices). -/
def natDigitsAux : Nat → Nat → List Char
  | 0, _ => []
  | fuel + 1, n => if n < 10 then [digitChar n] else natDigitsAux fuel (n / 10) ++ [digitChar (n % 10)]

/-- Decimal representation of a natural number (model of the JavaScript
number-to-string conversion on the integer values under study). -/
def natDigits (n : Nat) : List Char := natDigitsAux (n + 1) n

/-- Decimal representation of an integer value. -/
def intChars : Int → List Char
  | .ofNat n => natDigits n
  | .negSucc m => '-' :: natDigits (m + 1)

/-- JSON string escaping of one character: quote and backslash are escaped
with a backslash.  (`JSON.stringify` additionally escapes control
characters; the values under study contain none, and the omission does not
affect any property proved here.) -/
def escChar (c : Char) : List Char :=
  if c = '"' ∨ c = '\\' then ['\\', c] else [c]

/-- JSON string escaping of a character list. -/
def escape : List Char → List Char
  | [] => []
  | c :: cs => escChar c ++ escape cs

/-- JSON serialization of a string: quote, escape, quote. -/
def strChars (s : String) : List Char := '"' :: (escape s.data ++ ['"'])

/-- Comma-join a list of serialized chunks. -/
def joinComma : List (List Char) → List Char
  | [] => []
  | [c] => c
  | c :: cs => c ++ (',' :: joinComma cs)

mutual

/-- Model of `JSON.stringify` on the values under study, producing the
serialized character list: strings are quoted and escaped, numbers printed
in decimal, booleans and `null` as their keywords, arrays as bracketed
comma-joined elements (an `undefined` element prints as `null`), objects as
braced comma-joined `"key":value` fields with `undefined`-valued fields
omitted.  A root-level `undefined` never occurs in the serialized contents
under study and is modelled as `null`. -/
def ser : Glueson → List Char
  | .str s => strChars s
  | .num n => intChars n
  | .bool true => ['t', 'r', 'u', 'e']
  | .bool false => ['f', 'a', 'l', 's', 'e']
  | .null => ['n', 'u', 'l', 'l']
  | .undef => ['n', 'u', 'l', 'l']
  | .arr items => '[' :: (joinComma (serItemChunks items) ++ [']'])
  | .obj fields => '{' :: (joinComma (serFieldChunks fields) ++ ['}'])

/-- Serialized chunks of array elements, in order. -/
def serItemChunks : List Glueson → List (List Char)
  | [] => []
  | x :: xs => ser x :: serItemChunks xs

/-- Serialized chunks of object fields, in order, skipping fields whose
value is `undefined` exactly as `JSON.stringify` does. -/
def serFieldChunks : List (String × Glueson) → List (List Char)
  | [] => []
  | (_, .undef) :: fs => serFieldChunks fs
  | (k, v) :: fs => (strChars k ++ (':' :: ser v)) :: serFieldChunks fs

end

/-- The syntactic class of a serialized value, read off its variant. -/
def serClass : Glueson → Nat
  | .str _ => 0
  | .num _ => 1
  | .bool _ => 2
  | .null => 3
  | .undef => 3
  | .arr _ => 4
  | .obj _ => 5

/-- The syntactic class determined by the first character of a serialized
value. -/
def classOf (c : Char) : Nat :=
  if c = '"' then 0
  else if isDigitCh c = true ∨ c = '-' then 1
  else if c = 't' ∨ c = 'f' then 2
  else if c = 'n' then 3
  else if c = '[' then 4
  else if c = '{' then 5
  else 6

/-- A serialized-value suffix admissible after a number: it does not start
with a digit (in serialized output the next character is a comma or a
closing bracket, or the input ends). -/
def DelimOk (r : List Char) : Prop := ∀ c, r.head? = some c → isDigitCh c = false

/-- Byte-order comparison of character lists (total lexicographic order on
code points).  It models the comparator `(a, b) => a[0].localeCompare(b[0])`
of the source's `sortProps`: `localeCompare` is locale-collation based, but
any fixed total order gives the canonicalization property under study, and
the model fixes the code-point order. -/
def charListLe : List Char → List Char → Bool
  | [], _ => true
  | _ :: _, [] => false
  | a :: as, b :: bs =>
    if a.toNat < b.toNat then true
    else if b.toNat < a.toNat then false
    else charListLe as bs

/-- The modelled key order on strings. -/
def strLe (s t : String) : Bool := charListLe s.data t.data

/-- The key order on fields, as a relation (for sortedness statements). -/
def leKey (p q : String × Glueson) : Prop := strLe p.1 q.1 = true

/-- Insertion into a key-sorted field list. -/
def insertField (p : String × Glueson) : List (String × Glueson) → List (String × Glueson)
  | [] => [p]
  | q :: qs => if strLe p.1 q.1 then p :: q :: qs else q :: insertField p qs

/-- Insertion sort of object fields by key (model of
`Object.entries(value).sort((a, b) => a[0].localeCompare(b[0]))`,
lines 201-203). -/
def sortFields : List (String × Glueson) → List (String × Glueson)
  | [] => []
  | p :: ps => insertField p (sortFields ps)

mutual

/-- The canonical form hashed by source `hashExpression` (lines 196-211):
`JSON.stringify` is called with the `sortProps` replacer, which rewrites
every object encountered during serialization with its keys sorted —
applied recursively through nested object values, and inside array elements,
but never reordering array elements themselves. -/
def canon : Glueson → Glueson
  | .str s => .str s
  | .num n => .num n
  | .bool b => .bool b
  | .null => .null
  | .undef => .undef
  | .arr items => .arr (canonList items)
  | .obj fields => .obj (sortFields (canonFields fields))

/-- `canon` on every array element, order preserved. -/
def canonList : List Glueson → List Glueson
  | [] => []
  | x :: xs => canon x :: canonList xs

/-- `canon` on every field value, keys unchanged. -/
def canonFields : List (String × Glueson) → List (String × Glueson)
  | [] => []
  | (k, v) :: fs => (k, canon v) :: canonFields fs

end

/-- The canonical serialized content of a value: the byte string passed to
`createHash("sha256").update(content)` in source `hashExpression`
(line 206-210). -/
def canonicalContent (g : Glueson) : List Char := ser (canon g)

/-- No duplicate strings in a list (JavaScript objects cannot carry
duplicate keys, so validated expressions satisfy this). -/
def strNodup : List String → Bool
  | [] => true
  | s :: ss => !(ss.any (fun t => t == s)) && strNodup ss

mutual

/-- Well-formedness of a value as produced by `JSON.parse` and the
validators: object keys are duplicate-free at every depth and the value
contains no `undefined`. -/
def wf : Glueson → Bool
  | .str _ => true
  | .num _ => true
  | .bool _ => true
  | .null => true
  | .undef => false
  | .arr items => wfList items
  | .obj fields => strNodup (fields.map Prod.fst) && wfFields fields

/-- `wf` on every element. -/
def wfList : List Glueson → Bool
  | [] => true
  | x :: xs => wf x && wfList xs

/-- `wf` on every field value. -/
def wfFields : List (String × Glueson) → Bool
  | [] => true
  | (_, v) :: fs => wf v && wfFields fs

end

mutual

/-- Structural size, used as the measure for strong inductions over the
relations below. -/
def gsize : Glueson → Nat
  | .str _ => 1
  | .num _ => 1
  | .bool _ => 1
  | .null => 1
  | .undef => 1
  | .arr items => gsizeList items + 1
  | .obj fields => gsizeFields fields + 1

/-- Total size of a list of values. -/
def gsizeList : List Glueson → Nat
  | [] => 0
  | x :: xs => gsize x + gsizeList xs

/-- Total size of the values of a field list. -/
def gsizeFields : List (String × Glueson) → Nat
  | [] => 0
  | (_, v) :: fs => gsize v + gsizeFields fs

end

mutual

/-- Two values are equal up to reordering of mapping keys at any depth:
identical leaves, arrays matched elementwise in order, and objects matched
by first relating the fields pointwise (same keys, in order, related
values) and then permuting the field list. -/
inductive KeyPerm : Glueson → Glueson → Prop where
  | str (s : String) : KeyPerm (.str s) (.str s)
  | num (n : Int) : KeyPerm (.num n) (.num n)
  | bool (b : Bool) : KeyPerm (.bool b) (.bool b)
  | null : KeyPerm .null .null
  | undef : KeyPerm .undef .undef
  | arr {xs ys : List Glueson} : KeyPermList xs ys → KeyPerm (.arr xs) (.arr ys)
  | obj {fs ms gs : List (String × Glueson)} :
      KeyPermFields fs ms → List.Perm ms gs → KeyPerm (.obj fs) (.obj gs)

/-- Elementwise `KeyPerm`, order preserved. -/
inductive KeyPermList : List Glueson → List Glueson → Prop where
  | nil : KeyPermList [] []
  | cons {x y : Glueson} {xs ys : List Glueson} :
      KeyPerm x y → KeyPermList xs ys → KeyPermList (x :: xs) (y :: ys)

/-- Fieldwise `KeyPerm`: same keys in the same order, related values. -/
inductive KeyPermFields : List (String × Glueson) → List (String × Glueson) → Prop where
  | nil : KeyPermFields [] []
  | cons {k : String} {v w : Glueson} {fs gs : List (String × Glueson)} :
      KeyPerm v w → KeyPermFields fs gs → KeyPermFields ((k, v) :: fs) ((k, w) :: gs)

end

mutual

/-- Two values differ only in the order of elements of some sequences:
identical leaves, objects matched fieldwise (same keys, same order),
and arrays matched by first relating elementwise and then permuting. -/
inductive ArrPerm : Glueson → Glueson → Prop where
  | str (s : String) : ArrPerm (.str s) (.str s)
  | num (n : Int) : ArrPerm (.num n) (.num n)
  | bool (b : Bool) : ArrPerm (.bool b) (.bool b)
  | null : ArrPerm .null .null
  | undef : ArrPerm .undef .undef
  | arr {xs ms ys : List Glueson} :
      ArrPermList xs ms → List.Perm ms ys → ArrPerm (.arr xs) (.arr ys)
  | obj {fs gs : List (String × Glueson)} : ArrPermFields fs gs → ArrPerm (.obj fs) (.obj gs)

/-- Elementwise `ArrPerm`, order preserved. -/
inductive ArrPermList : List Glueson → List Glueson → Prop where
  | nil : ArrPermList [] []
  | cons {x y : Glueson} {xs ys : List Glueson} :
      ArrPerm x y → ArrPermList xs ys → ArrPermList (x :: xs) (y :: ys)

/-- Fieldwise `ArrPerm`: same keys in the same order, related values. -/
inductive ArrPermFields : List (String × Glueson) → List (String × Glueson) → Prop where
  | nil : ArrPermFields [] []
  | cons {k : String} {v w : Glueson} {fs gs : List (String × Glueson)} :
      ArrPerm v w → ArrPermFields fs gs → ArrPermFields ((k, v) :: fs) ((k, w) :: gs)

end

/-- A validated expression (source `type GluesonExpression`, lines 50-56):
the fully-typed result of the per-variant validators. -/
inductive GluesonExpression where
  | evaluate (code : String) (params : List (String × Glueson)) (lazy : Bool)
  | execute (command : String) (params : List (String × Glueson)) (stdin : Glueson)
      (log : Bool) (env : List (String × String))
  | get (path : String) (input : Glueson)
  | parse (input : String)
  | serialize (input : Glueson)
  | temporaryFile (content : String)

/-- The validated expression as the JavaScript object that
`hashExpression` receives, with the fields in the construction order of the
corresponding validator (the order is irrelevant after key sorting). -/
def encodeExpression : GluesonExpression → Glueson
  | .evaluate code params lazy =>
    .obj [("_glueson", .str "evaluate"), ("code", .str code), ("params", .obj params),
      ("lazy", .bool lazy)]
  | .execute command params stdin log env =>
    .obj [("_glueson", .str "execute"), ("command", .str command), ("params", .obj params),
      ("stdin", stdin), ("log", .bool log),
      ("env", .obj (env.map (fun kv => (kv.1, Glueson.str kv.2))))]
  | .get path input => .obj [("_glueson", .str "get"), ("input", input), ("path", .str path)]
  | .parse input => .obj [("_glueson", .str "parse"), ("input", .str input)]
  | .serialize input => .obj [("_glueson", .str "serialize"), ("input", input)]
  | .temporaryFile content =>
    .obj [("_glueson", .str "temporary-file"), ("content", .str content)]

/-- Source `hashExpression` (lines 196-211): the SHA-256 hex digest of the
canonical serialized content of the expression.  The cryptographic digest is
modelled as the canonical content itself: equal contents give equal digests
(this direction is unconditional), and distinct contents give distinct
digests under the standard collision-freeness idealization of SHA-256. -/
def hashExpression (e : GluesonExpression) : List Char :=
  canonicalContent (encodeExpression e)

/-- Source `executeTemporaryFileExpression` (lines 229-237): the temporary
file path is `resolve(tmpdir(), "glueson-" + Date.now() + "-" + hash)`,
modelled as the scratch directory, a slash, and that name; `nowMs` is the
wall-clock millisecond timestamp read by `new Date().getTime()` at
execution time. -/
def tempFilePath (tmpDir : List Char) (nowMs : Nat) (e : GluesonExpression) : List Char :=
  tmpDir ++ ('/' :: ("glueson-".data ++ natDigits nowMs ++ ('-' :: hashExpression e)))

/-- JavaScript truthiness of a value, as used by `if (stdin)` in the source
(lines 321 and 374). -/
def truthy : Glueson → Bool
  | .str s => !(s == "")
  | .num n => !(n == 0)
  | .bool b => b
  | .null => false
  | .undef => false
  | .arr _ => true
  | .obj _ => true

/-- The validated execute expression (source `type ExecuteExpression`,
lines 31-38). -/
structure ExecuteExpr where
  command : String
  params : List (String × Glueson)
  stdin : Glueson
  log : Bool
  env : List (String × String)

/-- What `runCommand` resolves to, as consumed by the execute executor
(lines 350-390): the catch-branch launch-failure message string, or the exit
record with the captured streams.  The spawning itself is outside the
model's boundary. -/
inductive RunResult where
  | failed (msg : String)
  | finished (exitCode : Int) (stdout : String) (stderr : String)

/-- Outcome of the execute executor: the host process terminates with the
given status after printing the given diagnostics to standard error
(`console.error` followed by `process.exit(1)` in the source), or a value
is returned into the language. -/
inductive ExecOutcome where
  | fatalExit (status : Nat) (stderrOutput : List String)
  | value (v : Glueson)

instance : DecidableEq ExecOutcome := fun x y =>
  match x, y with
  | .fatalExit s1 o1, .fatalExit s2 o2 =>
    match decEq s1 s2, decEq o1 o2 with
    | isTrue h1, isTrue h2 => isTrue (by rw [h1, h2])
    | isFalse h1, _ => isFalse (fun hh => h1 (ExecOutcome.fatalExit.inj hh).1)
    | _, isFalse h2 => isFalse (fun hh => h2 (ExecOutcome.fatalExit.inj hh).2)
  | .value v, .value w =>
    match Glueson.decEq v w with
    | isTrue h => isTrue (by rw [h])
    | isFalse h => isFalse (fun hh => h (ExecOutcome.value.inj hh))
  | .fatalExit _ _, .value _ => isFalse (fun h => nomatch h)
  | .value _, .fatalExit _ _ => isFalse (fun h => nomatch h)

/-- Source `executeExcecuteExpression` (lines 297-337; the body wrapped by
`cached`), given the settled result of `runCommand`: a string result (launch
failure) is printed and the process exits with status 1; a nonzero exit code
prints the failure line naming the command and the exit code, then the
params, stdin, stdout and stderr diagnostics when present, and exits with
status 1; on exit code 0 the value returned into the language is the exit
code when `log` is set and the captured stdout text otherwise.  (The
interpolation of non-string values into the diagnostic text is modelled
with the model serializer; the diagnostic text content is not load-bearing
for any claim.) -/
def executeExcecuteExpression (e : ExecuteExpr) (result : RunResult) : ExecOutcome :=
  match result with
  | .failed msg => .fatalExit 1 [msg]
  | .finished exitCode stdout stderr =>
    if exitCode = 0 then
      if e.log then .value (.num exitCode) else .value (.str stdout)
    else
      .fatalExit 1
        ((("command \"" ++ e.command ++ "\" failed with exit code "
            ++ String.mk (intChars exitCode) ++ "\n")
          :: (if e.params.length > 0 then
                ["params: " ++ String.mk (ser (.obj e.params)) ++ "\n"] else []))
          ++ (if truthy e.stdin then ["stdin:\n" ++ String.mk (ser e.stdin) ++ "\n"] else [])
          ++ (if stdout.length > 0 then ["stdout:\n" ++ stdout ++ "\n"] else [])
          ++ (if stderr.length > 0 then ["stderr:\n" ++ stderr ++ "\n"] else []))

/-- A successfully resolved value is never an expression node at the top:
`resolveValue` only returns once `isExpression` is false. -/
theorem resolveValue_not_expression (exec : Glueson → Option Glueson) :
    ∀ (fuel : Nat) (g v : Glueson), resolveValue exec fuel g = some v →
      isExpression v = false := by
  intro fuel
  induction fuel with
  | zero =>
    intro g v h
    rw [resolveValue] at h
    by_cases hg : isExpression g
    · simp [hg] at h
    · simp [hg] at h
      subst h
      exact Bool.eq_false_iff.mpr hg
  | succ n ih =>
    intro g v h
    rw [resolveValue] at h
    by_cases hg : isExpression g
    · simp only [hg, if_true] at h
      cases hx : exec g with
      | none => rw [hx] at h; cases h
      | some g2 =>
        rw [hx] at h
        exact ih g2 v h
    · simp [hg] at h
      subst h
      exact Bool.eq_false_iff.mpr hg

/-- On a non-expression node `resolveValue` is the identity, whatever the
fuel and the oracle. -/
theorem resolveValue_id (exec : Glueson → Option Glueson) (fuel : Nat) (g : Glueson)
    (h : isExpression g = false) : resolveValue exec fuel g = some g := by
  rw [resolveValue.eq_def]
  simp [h]

/-- `noExprList` holds exactly when `noExpr` holds on every element. -/
theorem noExprList_iff_all : ∀ xs : List Glueson,
    noExprList xs = true ↔ ∀ x ∈ xs, noExpr x = true := by
  intro xs
  induction xs with
  | nil => simp [noExprList]
  | cons x xs ih => simp [noExprList, ih]

/-- `noExprFields` holds exactly when `noExpr` holds on every field value. -/
theorem noExprFields_iff_all : ∀ fs : List (String × Glueson),
    noExprFields fs = true ↔ ∀ p ∈ fs, noExpr p.2 = true := by
  intro fs
  induction fs with
  | nil => simp [noExprFields]
  | cons p fs ih =>
    obtain ⟨k, v⟩ := p
    simp [noExprFields, ih]

/-- `hasGluesonKey` only looks at the keys. -/
theorem hasGluesonKey_eq_of_keys : ∀ (fs gs : List (String × Glueson)),
    fs.map Prod.fst = gs.map Prod.fst → hasGluesonKey fs = hasGluesonKey gs := by
  intro fs
  induction fs with
  | nil =>
    intro gs h
    cases gs with
    | nil => rfl
    | cons q gs => simp at h
  | cons p fs ih =>
    intro gs h
    cases gs with
    | nil => simp at h
    | cons q gs =>
      simp only [List.map_cons, List.cons.injEq] at h
      simp [hasGluesonKey, List.any_cons, h.1,
        show fs.any (fun p => p.1 == "_glueson") = gs.any (fun p => p.1 == "_glueson") from
          ih gs h.2]

/-- If every element resolves to itself, so does the list. -/
theorem resolveList_of_all (exec : Glueson → Option Glueson) (fuel : Nat) :
    ∀ xs : List Glueson, (∀ x ∈ xs, resolveGlueson exec fuel x = some x) →
      resolveList exec fuel xs = some xs := by
  intro xs
  induction xs with
  | nil => intro _; rw [resolveList]
  | cons x xs ih =>
    intro h
    rw [resolveList]
    rw [h x (by simp)]
    rw [ih (fun y hy => h y (by simp [hy]))]

/-- If every field value resolves to itself, so does the field list. -/
theorem resolveFields_of_all (exec : Glueson → Option Glueson) (fuel : Nat) :
    ∀ fs : List (String × Glueson), (∀ p ∈ fs, resolveGlueson exec fuel p.2 = some p.2) →
      resolveFields exec fuel fs = some fs := by
  intro fs
  induction fs with
  | nil => intro _; rw [resolveFields]
  | cons p fs ih =>
    obtain ⟨k, v⟩ := p
    intro h
    rw [resolveFields]
    rw [h (k, v) (by simp)]
    rw [ih (fun q hq => h q (by simp [hq]))]

/-- Inversion for `resolveList`: every output element is the resolution of
some input element, and lengths agree. -/
theorem resolveList_inv (exec : Glueson → Option Glueson) (fuel : Nat) :
    ∀ (xs rs : List Glueson), resolveList exec fuel xs = some rs →
      ∀ r ∈ rs, ∃ x, resolveGlueson exec fuel x = some r := by
  intro xs
  induction xs with
  | nil =>
    intro rs h
    rw [resolveList] at h
    cases h
    intro r hr
    simp at hr
  | cons x xs ih =>
    intro rs h
    rw [resolveList] at h
    cases hx : resolveGlueson exec fuel x with
    | none => rw [hx] at h; cases h
    | some r0 =>
      rw [hx] at h
      cases hxs : resolveList exec fuel xs with
      | none => rw [hxs] at h; cases h
      | some rs0 =>
        rw [hxs] at h
        cases h
        intro r hr
        rcases List.mem_cons.mp hr with h1 | h2
        · exact ⟨x, by rw [hx, h1]⟩
        · exact ih rs0 hxs r h2

/-- Inversion for `resolveFields`: keys are preserved in order and every
output value is the resolution of some input value. -/
theorem resolveFields_inv (exec : Glueson → Option Glueson) (fuel : Nat) :
    ∀ (fs rs : List (String × Glueson)), resolveFields exec fuel fs = some rs →
      rs.map Prod.fst = fs.map Prod.fst ∧
        ∀ p ∈ rs, ∃ v, resolveGlueson exec fuel v = some p.2 := by
  intro fs
  induction fs with
  | nil =>
    intro rs h
    rw [resolveFields] at h
    cases h
    exact ⟨rfl, by intro p hp; simp at hp⟩
  | cons q fs ih =>
    obtain ⟨k, v⟩ := q
    intro rs h
    rw [resolveFields] at h
    cases hv : resolveGlueson exec fuel v with
    | none => rw [hv] at h; cases h
    | some r0 =>
      rw [hv] at h
      cases hfs : resolveFields exec fuel fs with
      | none => rw [hfs] at h; cases h
      | some rs0 =>
        rw [hfs] at h
        cases h
        obtain ⟨hkeys, hvals⟩ := ih rs0 hfs
        constructor
        · simp [hkeys]
        · intro p hp
          rcases List.mem_cons.mp hp with h1 | h2
          · exact ⟨v, by rw [hv, h1]⟩
          · exact hvals p h2

/-- A value with no expression nodes is in particular not an expression node
at the top. -/
theorem noExpr_not_expression : ∀ g : Glueson, noExpr g = true → isExpression g = false := by
  intro g h
  cases g with
  | obj fields =>
    rw [noExpr] at h
    simp only [Bool.and_eq_true, Bool.not_eq_true'] at h
    rw [isExpression]
    exact h.1
  | str s => rfl
  | num n => rfl
  | bool b => rfl
  | null => rfl
  | undef => rfl
  | arr items => rfl

/-- Unfolding step for the tree walk at a successor fuel value. -/
theorem resolveGlueson_succ (exec : Glueson → Option Glueson) (n : Nat) (g : Glueson) :
    resolveGlueson exec (n + 1) g =
      match resolveValue exec (n + 1) g with
      | none => none
      | some (.str s) => some (.str s)
      | some (.num m) => some (.num m)
      | some (.bool b) => some (.bool b)
      | some .null => some .null
      | some .undef => some .undef
      | some (.arr items) =>
        (match resolveList exec n items with
          | none => none
          | some rs => some (.arr rs))
      | some (.obj fields) =>
        (match resolveFields exec n fields with
          | none => none
          | some rfs => some (.obj rfs)) := by
  rw [resolveGlueson]

/-- Tree walk on a non-expression array: walk the elements. -/
theorem resolveGlueson_arr (exec : Glueson → Option Glueson) (n : Nat) (items : List Glueson) :
    resolveGlueson exec (n + 1) (.arr items) =
      (match resolveList exec n items with
        | none => none
        | some rs => some (.arr rs)) := by
  rw [resolveGlueson_succ, resolveValue_id exec (n + 1) (Glueson.arr items) rfl]

/-- Tree walk on a non-expression object: walk the field values. -/
theorem resolveGlueson_obj (exec : Glueson → Option Glueson) (n : Nat)
    (fields : List (String × Glueson)) (h : hasGluesonKey fields = false) :
    resolveGlueson exec (n + 1) (.obj fields) =
      (match resolveFields exec n fields with
        | none => none
        | some rfs => some (.obj rfs)) := by
  rw [resolveGlueson_succ,
    resolveValue_id exec (n + 1) (Glueson.obj fields) (by rw [isExpression]; exact h)]

/-- An element is at most as deep as its list. -/
theorem depth_le_depthList : ∀ (xs : List Glueson) (x : Glueson), x ∈ xs →
    depth x ≤ depthList xs := by
  intro xs
  induction xs with
  | nil => intro x hx; simp at hx
  | cons y ys ih =>
    intro x hx
    rw [depthList]
    rcases List.mem_cons.mp hx with h1 | h2
    · subst h1; exact Nat.le_max_left _ _
    · exact Nat.le_trans (ih x h2) (Nat.le_max_right _ _)

/-- A field value is at most as deep as its field list. -/
theorem depth_le_depthFields : ∀ (fs : List (String × Glueson)) (p : String × Glueson),
    p ∈ fs → depth p.2 ≤ depthFields fs := by
  intro fs
  induction fs with
  | nil => intro p hp; simp at hp
  | cons q qs ih =>
    intro p hp
    obtain ⟨k, v⟩ := q
    rw [depthFields]
    rcases List.mem_cons.mp hp with h1 | h2
    · subst h1; exact Nat.le_max_left _ _
    · exact Nat.le_trans (ih p h2) (Nat.le_max_right _ _)

/-- Core identity lemma: on a value containing no expression node, with fuel
exceeding its depth, the tree walk returns the value unchanged — for every
oracle, in particular for `noExec`, which refuses all executions. -/
theorem resolveGlueson_id_aux : ∀ (fuel : Nat) (exec : Glueson → Option Glueson) (g : Glueson),
    noExpr g = true → depth g < fuel → resolveGlueson exec fuel g = some g := by
  intro fuel
  induction fuel with
  | zero => intro exec g _ hd; exact absurd hd (Nat.not_lt_zero _)
  | succ n ih =>
    intro exec g hne hd
    cases g with
    | str s => rw [resolveGlueson_succ, resolveValue_id exec (n + 1) (Glueson.str s) rfl]
    | num m => rw [resolveGlueson_succ, resolveValue_id exec (n + 1) (Glueson.num m) rfl]
    | bool b => rw [resolveGlueson_succ, resolveValue_id exec (n + 1) (Glueson.bool b) rfl]
    | null => rw [resolveGlueson_succ, resolveValue_id exec (n + 1) Glueson.null rfl]
    | undef => rw [resolveGlueson_succ, resolveValue_id exec (n + 1) Glueson.undef rfl]
    | arr items =>
      rw [resolveGlueson_arr]
      have hlist : resolveList exec n items = some items := by
        apply resolveList_of_all
        intro x hx
        apply ih exec x ((noExprList_iff_all items).mp (by rw [noExpr] at hne; exact hne) x hx)
        have h1 : depthList items < n := by
          rw [depth] at hd
          omega
        exact Nat.lt_of_le_of_lt (depth_le_depthList items x hx) h1
      rw [hlist]
    | obj fields =>
      rw [noExpr] at hne
      simp only [Bool.and_eq_true, Bool.not_eq_true'] at hne
      rw [resolveGlueson_obj exec n fields hne.1]
      have hfields : resolveFields exec n fields = some fields := by
        apply resolveFields_of_all
        intro p hp
        apply ih exec p.2 ((noExprFields_iff_all fields).mp hne.2 p hp)
        have h1 : depthFields fields < n := by
          rw [depth] at hd
          omega
        exact Nat.lt_of_le_of_lt (depth_le_depthFields fields p hp) h1
      rw [hfields]

/-- Core purity lemma: whenever the tree walk succeeds, its output contains
no expression node at any depth and resolves to itself again (with the same
fuel and the same oracle — on the output the oracle is never consulted). -/
theorem resolveGlueson_pure_aux : ∀ (fuel : Nat) (exec : Glueson → Option Glueson)
    (g r : Glueson), resolveGlueson exec fuel g = some r →
      noExpr r = true ∧ resolveGlueson exec fuel r = some r := by
  intro fuel
  induction fuel with
  | zero =>
    intro exec g r h
    rw [resolveGlueson] at h
    cases h
  | succ n ih =>
    intro exec g r h
    rw [resolveGlueson_succ] at h
    cases hv : resolveValue exec (n + 1) g with
    | none => rw [hv] at h; cases h
    | some v =>
      rw [hv] at h
      have hve : isExpression v = false := resolveValue_not_expression exec (n + 1) g v hv
      cases v with
      | str s =>
        cases h
        exact ⟨rfl, by
          rw [resolveGlueson_succ, resolveValue_id exec (n + 1) (Glueson.str s) rfl]⟩
      | num m =>
        cases h
        exact ⟨rfl, by
          rw [resolveGlueson_succ, resolveValue_id exec (n + 1) (Glueson.num m) rfl]⟩
      | bool b =>
        cases h
        exact ⟨rfl, by
          rw [resolveGlueson_succ, resolveValue_id exec (n + 1) (Glueson.bool b) rfl]⟩
      | null =>
        cases h
        exact ⟨rfl, by
          rw [resolveGlueson_succ, resolveValue_id exec (n + 1) Glueson.null rfl]⟩
      | undef =>
        cases h
        exact ⟨rfl, by
          rw [resolveGlueson_succ, resolveValue_id exec (n + 1) Glueson.undef rfl]⟩
      | arr items =>
        change (match resolveList exec n items with
          | none => none
          | some rs => some (Glueson.arr rs)) = some r at h
        cases hl : resolveList exec n items with
        | none =>
          rw [hl] at h
          cases h
        | some rs =>
          rw [hl] at h
          cases h
          have hptw : ∀ r' ∈ rs, noExpr r' = true ∧ resolveGlueson exec n r' = some r' := by
            intro r' hr'
            obtain ⟨x, hx⟩ := resolveList_inv exec n items rs hl r' hr'
            exact ih exec x r' hx
          have hne : noExpr (Glueson.arr rs) = true := by
            rw [noExpr]
            exact (noExprList_iff_all rs).mpr (fun x hx => (hptw x hx).1)
          refine ⟨hne, ?_⟩
          rw [resolveGlueson_arr]
          rw [resolveList_of_all exec n rs (fun x hx => (hptw x hx).2)]
      | obj fields =>
        change (match resolveFields exec n fields with
          | none => none
          | some rfs => some (Glueson.obj rfs)) = some r at h
        cases hf : resolveFields exec n fields with
        | none =>
          rw [hf] at h
          cases h
        | some rfs =>
          rw [hf] at h
          cases h
          obtain ⟨hkeys, hvals⟩ := resolveFields_inv exec n fields rfs hf
          have hptw : ∀ p ∈ rfs, noExpr p.2 = true ∧ resolveGlueson exec n p.2 = some p.2 := by
            intro p hp
            obtain ⟨v, hv2⟩ := hvals p hp
            exact ih exec v p.2 hv2
          have hkey : hasGluesonKey rfs = false := by
            rw [hasGluesonKey_eq_of_keys rfs fields hkeys]
            rw [isExpression] at hve
            exact hve
          have hne : noExpr (Glueson.obj rfs) = true := by
            rw [noExpr]
            rw [hkey]
            simp only [Bool.not_false, Bool.true_and]
            exact (noExprFields_iff_all rfs).mpr (fun p hp => (hptw p hp).1)
          refine ⟨hne, ?_⟩
          rw [resolveGlueson_obj exec n rfs hkey]
          rw [resolveFields_of_all exec n rfs (fun p hp => (hptw p hp).2)]

/-- C2: for every document, whenever `resolveGlueson` returns a value, that
value contains no expression node (no mapping bearing the `"_glueson"` key)
at any depth, and applying `resolveGlueson` to its own output returns that
output unchanged (idempotence), with the same fuel and oracle. -/
theorem c2_resolveGlueson_output_expression_free_idempotent :
    ∀ (exec : Glueson → Option Glueson) (fuel : Nat) (g r : Glueson),
      resolveGlueson exec fuel g = some r →
        noExpr r = true ∧ resolveGlueson exec fuel r = some r :=
  fun exec fuel g r h => resolveGlueson_pure_aux fuel exec g r h

/-- Witness for C2 at the concrete document `{"a": ["x"]}` with fuel 3 and
the execution-refusing oracle. -/
theorem c2_resolveGlueson_output_expression_free_idempotent_witness :
    noExpr (Glueson.obj [("a", Glueson.arr [Glueson.str "x"])]) = true ∧
      resolveGlueson noExec 3 (Glueson.obj [("a", Glueson.arr [Glueson.str "x"])]) =
        some (Glueson.obj [("a", Glueson.arr [Glueson.str "x"])]) :=
  c2_resolveGlueson_output_expression_free_idempotent noExec 3
    (Glueson.obj [("a", Glueson.arr [Glueson.str "x"])])
    (Glueson.obj [("a", Glueson.arr [Glueson.str "x"])])
    (resolveGlueson_id_aux 3 noExec (Glueson.obj [("a", Glueson.arr [Glueson.str "x"])])
      (by decide) (by decide))

/-- C10: on a plain document (no mapping with the `"_glueson"` key at any
depth), `resolveValue` and `resolveGlueson` return the input itself —
structurally equal, keys and order preserved — for every oracle (in
particular for `noExec`, which fails on any execution attempt, so success
certifies that no expression was executed), given fuel above the nesting
depth. -/
theorem c10_plain_documents_resolve_to_themselves :
    ∀ g : Glueson, noExpr g = true → ∀ fuel : Nat, depth g < fuel →
      ∀ exec : Glueson → Option Glueson,
        resolveValue exec fuel g = some g ∧ resolveGlueson exec fuel g = some g :=
  fun g hg fuel hf exec =>
    ⟨resolveValue_id exec fuel g (noExpr_not_expression g hg),
      resolveGlueson_id_aux fuel exec g hg hf⟩

/-- Witness for C10 at the concrete plain document
`{"a": [1, "x"], "b": null}` with fuel 3 and the execution-refusing
oracle. -/
theorem c10_plain_documents_resolve_to_themselves_witness :
    noExpr (Glueson.obj [("a", Glueson.arr [Glueson.num 1, Glueson.str "x"]),
        ("b", Glueson.null)]) = true ∧
      depth (Glueson.obj [("a", Glueson.arr [Glueson.num 1, Glueson.str "x"]),
        ("b", Glueson.null)]) < 3 ∧
      resolveValue noExec 3 (Glueson.obj [("a", Glueson.arr [Glueson.num 1, Glueson.str "x"]),
        ("b", Glueson.null)]) =
        some (Glueson.obj [("a", Glueson.arr [Glueson.num 1, Glueson.str "x"]),
          ("b", Glueson.null)]) ∧
      resolveGlueson noExec 3 (Glueson.obj [("a", Glueson.arr [Glueson.num 1, Glueson.str "x"]),
        ("b", Glueson.null)]) =
        some (Glueson.obj [("a", Glueson.arr [Glueson.num 1, Glueson.str "x"]),
          ("b", Glueson.null)]) :=
  ⟨by decide, by decide,
    (c10_plain_documents_resolve_to_themselves
      (Glueson.obj [("a", Glueson.arr [Glueson.num 1, Glueson.str "x"]), ("b", Glueson.null)])
      (by decide) 3 (by decide) noExec).1,
    (c10_plain_documents_resolve_to_themselves
      (Glueson.obj [("a", Glueson.arr [Glueson.num 1, Glueson.str "x"]), ("b", Glueson.null)])
      (by decide) 3 (by decide) noExec).2⟩

/-- After a cache call for a fingerprint, the cache maps that fingerprint to
the very promise the call returned. -/
theorem cachedCall_stores (state : List (String × Nat)) (nextId : Nat) (fp : String) :
    cacheLookup (cachedCall state nextId fp).state fp =
      some (cachedCall state nextId fp).promise := by
  rw [cachedCall]
  cases hr : cacheLookup state fp with
  | some id => exact hr
  | none => simp [cacheLookup]

/-- Once the cache holds an entry for a fingerprint, every later call for
that fingerprint returns the stored promise and never invokes the
producer (entries are never removed or overwritten). -/
theorem runCachedCalls_stable : ∀ (calls : List String) (state : List (String × Nat))
    (nextId : Nat) (fp : String) (id : Nat), cacheLookup state fp = some id →
      ∀ o ∈ runCachedCalls calls state nextId, o.1 = fp → o.2.1 = id ∧ o.2.2 = false := by
  intro calls
  induction calls with
  | nil => intro state nextId fp id _ o ho; simp [runCachedCalls] at ho
  | cons fp2 rest ih =>
    intro state nextId fp id hid o ho hofp
    rw [runCachedCalls] at ho
    rw [cachedCall] at ho
    cases hr : cacheLookup state fp2 with
    | some id2 =>
      rw [hr] at ho
      rcases List.mem_cons.mp ho with h1 | h2
      · subst h1
        simp only at hofp
        subst hofp
        rw [hid] at hr
        exact ⟨(Option.some.inj hr).symm, rfl⟩
      · exact ih state nextId fp id hid o h2 hofp
    | none =>
      rw [hr] at ho
      rcases List.mem_cons.mp ho with h1 | h2
      · subst h1
        simp only at hofp
        subst hofp
        rw [hid] at hr
        cases hr
      · have hne : (fp2 == fp) = false := by
          by_cases he : fp2 = fp
          · subst he; rw [hid] at hr; cases hr
          · simp [he]
        have hlook : cacheLookup ((fp2, nextId) :: state) fp = some id := by
          rw [cacheLookup, hne]
          exact hid
        exact ih ((fp2, nextId) :: state) (nextId + 1) fp id hlook o h2 hofp

/-- Any two observations of the same fingerprint in one run carry the same
promise. -/
theorem runCachedCalls_consistent : ∀ (calls : List String) (state : List (String × Nat))
    (nextId : Nat), ∀ o1 ∈ runCachedCalls calls state nextId,
      ∀ o2 ∈ runCachedCalls calls state nextId, o1.1 = o2.1 → o1.2.1 = o2.2.1 := by
  intro calls
  induction calls with
  | nil => intro state nextId o1 ho1; simp [runCachedCalls] at ho1
  | cons fp2 rest ih =>
    intro state nextId o1 ho1 o2 ho2 heq
    rw [runCachedCalls] at ho1 ho2
    rcases List.mem_cons.mp ho1 with h1 | h1 <;> rcases List.mem_cons.mp ho2 with h2 | h2
    · rw [h1, h2]
    · subst h1
      simp only at heq
      have := runCachedCalls_stable rest (cachedCall state nextId fp2).state
        (cachedCall state nextId fp2).nextId fp2 (cachedCall state nextId fp2).promise
        (cachedCall_stores state nextId fp2) o2 h2 heq.symm
      exact this.1.symm
    · subst h2
      simp only at heq
      have := runCachedCalls_stable rest (cachedCall state nextId fp2).state
        (cachedCall state nextId fp2).nextId fp2 (cachedCall state nextId fp2).promise
        (cachedCall_stores state nextId fp2) o1 h1 heq
      exact this.1
    · exact ih (cachedCall state nextId fp2).state (cachedCall state nextId fp2).nextId
        o1 h1 o2 h2 heq

/-- Unfolding of `invokedCount` over a cons. -/
theorem invokedCount_cons (o : String × Nat × Bool) (obs : List (String × Nat × Bool))
    (fp : String) :
    invokedCount (o :: obs) fp =
      (if (o.1 == fp && o.2.2) = true then 1 else 0) + invokedCount obs fp := by
  rw [invokedCount, invokedCount, List.filter_cons]
  by_cases h : (o.1 == fp && o.2.2) = true
  · simp [h, Nat.add_comm]
  · simp [h]

/-- Cache lookup skips an entry with a different fingerprint. -/
theorem cacheLookup_cons_ne (k : String) (id : Nat) (state : List (String × Nat)) (fp : String)
    (h : ¬k = fp) : cacheLookup ((k, id) :: state) fp = cacheLookup state fp := by
  rw [cacheLookup]
  simp [h]

/-- Run unfolding on a cache hit. -/
theorem runCachedCalls_cons_hit (fp2 : String) (rest : List String)
    (state : List (String × Nat)) (nextId : Nat) (id2 : Nat)
    (hr : cacheLookup state fp2 = some id2) :
    runCachedCalls (fp2 :: rest) state nextId =
      (fp2, id2, false) :: runCachedCalls rest state nextId := by
  rw [runCachedCalls, cachedCall, hr]

/-- Run unfolding on a cache miss. -/
theorem runCachedCalls_cons_miss (fp2 : String) (rest : List String)
    (state : List (String × Nat)) (nextId : Nat)
    (hr : cacheLookup state fp2 = none) :
    runCachedCalls (fp2 :: rest) state nextId =
      (fp2, nextId, true) :: runCachedCalls rest ((fp2, nextId) :: state) (nextId + 1) := by
  rw [runCachedCalls, cachedCall, hr]

/-- In any run, the producer is invoked at most once per fingerprint — not
at all if the cache already holds the fingerprint. -/
theorem runCachedCalls_invoked_le : ∀ (calls : List String) (state : List (String × Nat))
    (nextId : Nat) (fp : String),
      invokedCount (runCachedCalls calls state nextId) fp ≤
        (if (cacheLookup state fp).isSome then 0 else 1) := by
  intro calls
  induction calls with
  | nil =>
    intro state nextId fp
    rw [runCachedCalls, invokedCount]
    simp
  | cons fp2 rest ih =>
    intro state nextId fp
    cases hr : cacheLookup state fp2 with
    | some id2 =>
      rw [runCachedCalls_cons_hit fp2 rest state nextId id2 hr, invokedCount_cons]
      have h0 : (if ((fp2 == fp) && false) = true then (1 : Nat) else 0) = 0 := by simp
      rw [h0]
      have htail := ih state nextId fp
      omega
    | none =>
      rw [runCachedCalls_cons_miss fp2 rest state nextId hr, invokedCount_cons]
      by_cases he : fp2 = fp
      · subst he
        have h1 : (if ((fp2 == fp2) && true) = true then (1 : Nat) else 0) = 1 := by simp
        rw [h1, hr]
        have h2 : (if (none : Option Nat).isSome = true then (0 : Nat) else 1) = 1 := by simp
        rw [h2]
        have htail := ih ((fp2, nextId) :: state) (nextId + 1) fp2
        have hsome : cacheLookup ((fp2, nextId) :: state) fp2 = some nextId := by
          simp [cacheLookup]
        rw [hsome] at htail
        simp only [Option.isSome_some, if_true] at htail
        omega
      · have hne : (fp2 == fp) = false := by simp [he]
        rw [hne]
        have h0 : (if (false && true) = true then (1 : Nat) else 0) = 0 := by simp
        rw [h0]
        have htail := ih ((fp2, nextId) :: state) (nextId + 1) fp
        rw [cacheLookup_cons_ne fp2 nextId state fp he] at htail
        omega

/-- C1: in any sequence of cache calls of one run (each call is atomic in
the single-threaded event loop, so every concurrent schedule is such a
sequence), the producer behind a fingerprint is invoked at most once, the
entry is stored by the invoking call before any later call looks up, and
all calls for one fingerprint observe the same promise — hence the same
eventual result or failure. -/
theorem c1_cache_single_flight :
    ∀ (calls : List String) (fp : String),
      invokedCount (runCachedCalls calls [] 0) fp ≤ 1 ∧
        ∀ o1 ∈ runCachedCalls calls [] 0, ∀ o2 ∈ runCachedCalls calls [] 0,
          o1.1 = o2.1 → o1.2.1 = o2.2.1 := by
  intro calls fp
  constructor
  · have h := runCachedCalls_invoked_le calls [] 0 fp
    have h0 : cacheLookup [] fp = none := rfl
    rw [h0] at h
    simpa using h
  · exact runCachedCalls_consistent calls [] 0

/-- Witness for C1: in the concrete run requesting fingerprints
`a`, `a`, `b`, the producer for `a` runs at most once and the two `a`
observations share one promise. -/
theorem c1_cache_single_flight_witness :
    invokedCount (runCachedCalls ["a", "a", "b"] [] 0) "a" ≤ 1 ∧
      (("a", 0, true) : String × Nat × Bool).2.1 = (("a", 0, false) : String × Nat × Bool).2.1 :=
  ⟨(c1_cache_single_flight ["a", "a", "b"] "a").1,
    (c1_cache_single_flight ["a", "a", "b"] "a").2 ("a", 0, true) (by decide)
      ("a", 0, false) (by decide) rfl⟩

/-- Tokenwise equality of the source argument expansion and the claim's
description. -/
theorem expandArgs_eq_spec (inputs : List (String × ParamValue)) :
    ∀ ts : List String, expandArgs inputs ts = specExpandTokens inputs ts := by
  intro ts
  induction ts with
  | nil => rfl
  | cons t ts ih =>
    rw [expandArgs, specExpandTokens, expandArg]
    by_cases hs : startsWithDollar t = true
    · simp only [hs, if_true]
      cases hl : lookupParam inputs (sliceOne t) with
      | none => rfl
      | some v =>
        cases v with
        | scalar s =>
          rw [ih]
          cases specExpandTokens inputs ts <;> rfl
        | seq xs =>
          rw [ih]
          cases specExpandTokens inputs ts <;> rfl
    · simp only [hs, if_false]
      rw [ih]
      cases specExpandTokens inputs ts <;> rfl

/-- C9: for every command template and parameter mapping, the source
argument construction (`prepareArgs`: split on spaces, drop empty tokens,
flat-map each token) agrees exactly with the claim's description
(`prepareArgsSpec`): a `"$"`-token is replaced by the value under its
remaining characters, a sequence expanding to one position per element and
a scalar to one position, a missing name is the fatal `missing input`
error, and every other token passes through as one argument, unquoted. -/
theorem c9_prepareArgs_matches_description :
    ∀ (command : String) (inputs : List (String × ParamValue)),
      prepareArgs command inputs = prepareArgsSpec command inputs := by
  intro command inputs
  rw [prepareArgs, prepareArgsSpec]
  exact expandArgs_eq_spec inputs _

/-- C8: for every execute expression whose child exits with code 0, the
executor returns the captured stdout text when `log` is false, and the exit
code — necessarily 0 on this branch — when `log` is true. -/
theorem c8_execute_success_value :
    ∀ (e : ExecuteExpr) (stdout stderr : String),
      executeExcecuteExpression e (.finished 0 stdout stderr) =
        (if e.log then ExecOutcome.value (.num 0) else ExecOutcome.value (.str stdout)) := by
  intro e stdout stderr
  rw [executeExcecuteExpression]
  simp

/-- C4: a launch failure or a nonzero exit code makes the execute executor
terminate the host process with exit status 1, after printing nonempty
diagnostics to standard error; in neither case is any value returned into
the language. -/
theorem c4_execute_failure_fatal :
    ∀ (e : ExecuteExpr) (msg : String) (code : Int) (stdout stderr : String), code ≠ 0 →
      executeExcecuteExpression e (.failed msg) = .fatalExit 1 [msg] ∧
      (∃ msgs : List String, msgs ≠ [] ∧
        executeExcecuteExpression e (.finished code stdout stderr) = .fatalExit 1 msgs) ∧
      (∀ v : Glueson, executeExcecuteExpression e (.failed msg) ≠ .value v) ∧
      (∀ v : Glueson, executeExcecuteExpression e (.finished code stdout stderr) ≠ .value v) := by
  intro e msg code stdout stderr hcode
  refine ⟨rfl, ?_, ?_, ?_⟩
  · have heq : executeExcecuteExpression e (.finished code stdout stderr) =
        .fatalExit 1 ((("command \"" ++ e.command ++ "\" failed with exit code "
            ++ String.mk (intChars code) ++ "\n")
          :: (if e.params.length > 0 then
                ["params: " ++ String.mk (ser (.obj e.params)) ++ "\n"] else []))
          ++ (if truthy e.stdin then ["stdin:\n" ++ String.mk (ser e.stdin) ++ "\n"] else [])
          ++ (if stdout.length > 0 then ["stdout:\n" ++ stdout ++ "\n"] else [])
          ++ (if stderr.length > 0 then ["stderr:\n" ++ stderr ++ "\n"] else [])) := by
      rw [executeExcecuteExpression]
      simp [hcode]
    exact ⟨_, by simp, heq⟩
  · intro v hcontra
    rw [executeExcecuteExpression] at hcontra
    cases hcontra
  · intro v hcontra
    rw [executeExcecuteExpression] at hcontra
    simp [hcode] at hcontra

/-- Witness for C4 at the concrete execute expression `false` (no params,
empty stdin, no log) with exit code 1, and at a concrete launch failure. -/
theorem c4_execute_failure_fatal_witness :
    executeExcecuteExpression ⟨"false", [], .str "", false, []⟩
        (.failed "executable false not found") =
      .fatalExit 1 ["executable false not found"] ∧
    (∃ msgs : List String, msgs ≠ [] ∧
      executeExcecuteExpression ⟨"false", [], .str "", false, []⟩
          (.finished 1 "" "") = .fatalExit 1 msgs) ∧
    (∀ v : Glueson, executeExcecuteExpression ⟨"false", [], .str "", false, []⟩
        (.failed "executable false not found") ≠ .value v) ∧
    (∀ v : Glueson, executeExcecuteExpression ⟨"false", [], .str "", false, []⟩
        (.finished 1 "" "") ≠ .value v) :=
  c4_execute_failure_fatal ⟨"false", [], .str "", false, []⟩
    "executable false not found" 1 "" "" (by decide)

/-- C5 evidence, evaluating the `get` executor at the two scenario inputs:
with `path` `"a.b"` and input `{"a":{"b":"x"}}` the executor returns `"x"`
as the claim says, but with input `{"a":{}}` it silently returns the
JavaScript `undefined` — no error is raised and the process does not fail,
contradicting the claim (and the repository README, which states the input
"has to contain the given path or it will fail"). -/
theorem c5_get_missing_segment_silently_undefined :
    executeGetExpression "a.b" (.obj [("a", .obj [("b", .str "x")])]) = .ok (.str "x") ∧
      executeGetExpression "a.b" (.obj [("a", .obj [])]) = .ok .undef := by
  constructor
  · rfl
  · rfl

/-- C6 counterexample: with the raw input `{"a": <parse expression>}` and
path `"a.b"`, the executor indexes the expression node raw and returns
`undefined`, while the claimed resolve-then-index walk (source `getValue`,
under an oracle that executes the parse node to `{"b":"x"}`) returns `"x"`;
the executor does not resolve intermediate nodes. -/
theorem c6_counterexample_executor_indexes_raw :
    executeGetExpression "a.b" (.obj [("a", parseNodeExample)]) = .ok .undef ∧
      getValue parseOracleExample 2 (.obj [("a", parseNodeExample)]) ["a", "b"] =
        some (.ok (.str "x")) ∧
      executeGetExpression "a.b" (.obj [("a", parseNodeExample)]) ≠ .ok (.str "x") := by
  refine ⟨rfl, ?_, ?_⟩
  · rfl
  · intro hcontra
    cases hcontra

/-- The fold of the loop body over the path segments equals the direct
segment-by-segment raw walk. -/
theorem foldlM_jsProperty_eq_rawGetWalk : ∀ (segs : List String) (current : Glueson),
    List.foldlM jsProperty current segs = rawGetWalk segs current := by
  intro segs
  induction segs with
  | nil => intro current; rfl
  | cons seg rest ih =>
    intro current
    cases current with
    | arr items => exact ih (arrIndex items seg)
    | obj fields => exact ih (objIndex fields seg)
    | str s => rfl
    | num n => rfl
    | bool b => rfl
    | null => rfl
    | undef => rfl

/-- C6 amended: the field-extraction executor splits the path on `"."` and
indexes into the raw, unresolved input segment by segment, never resolving
intermediate nodes — an expression node at an intermediate position is
indexed raw, not evaluated; indexing a non-structural node is the fatal
error naming the offending segment; the raw final value is what the
executor returns (the caller's `resolveValue` loop, not the executor,
resolves it afterwards).  The resolve-then-index walk the claim describes
is the separate `getValue` helper, exposed only as the `get` capability of
code-evaluation. -/
theorem c6_amended_get_executor_walks_raw :
    ∀ (path : String) (input : Glueson),
      executeGetExpression path input = rawGetWalk (splitString '.' path) input := by
  intro path input
  rw [executeGetExpression]
  exact foldlM_jsProperty_eq_rawGetWalk (splitString '.' path) input

/-- The fuel of `natDigitsAux` is irrelevant once above the value. -/
theorem natDigitsAux_eq : ∀ (n f1 f2 : Nat), n < f1 → n < f2 →
    natDigitsAux f1 n = natDigitsAux f2 n := by
  intro n
  induction n using Nat.strong_induction_on with
  | _ n ih =>
    intro f1 f2 h1 h2
    cases f1 with
    | zero => exact absurd h1 (Nat.not_lt_zero _)
    | succ g1 =>
      cases f2 with
      | zero => exact absurd h2 (Nat.not_lt_zero _)
      | succ g2 =>
        rw [natDigitsAux, natDigitsAux]
        by_cases h10 : n < 10
        · simp [h10]
        · have hd : n / 10 < n := Nat.div_lt_self (by omega) (by omega)
          simp only [h10, if_false]
          rw [ih (n / 10) hd g1 g2 (by omega) (by omega)]

/-- With fuel above the value, `natDigitsAux` computes `natDigits`. -/
theorem natDigitsAux_fuel (fuel n : Nat) (h : n < fuel) : natDigitsAux fuel n = natDigits n :=
  natDigitsAux_eq n fuel (n + 1) h (Nat.lt_succ_self n)

/-- The digit characters have the expected code points. -/
theorem digitChar_toNat : ∀ d : Nat, d < 10 → (digitChar d).toNat = 48 + d := by
  intro d h
  rcases d with _|_|_|_|_|_|_|_|_|_|d
  · decide
  · decide
  · decide
  · decide
  · decide
  · decide
  · decide
  · decide
  · decide
  · decide
  · omega

/-- Digit characters are digits. -/
theorem isDigitCh_digitChar : ∀ d : Nat, d < 10 → isDigitCh (digitChar d) = true := by
  intro d h
  rw [isDigitCh, digitChar_toNat d h]
  simp only [Bool.and_eq_true, decide_eq_true_eq]
  omega

/-- Every character produced by `natDigitsAux` is a digit. -/
theorem natDigitsAux_digits : ∀ (fuel n : Nat) (c : Char), c ∈ natDigitsAux fuel n →
    isDigitCh c = true := by
  intro fuel
  induction fuel with
  | zero => intro n c hc; rw [natDigitsAux] at hc; simp at hc
  | succ f ih =>
    intro n c hc
    rw [natDigitsAux] at hc
    by_cases h10 : n < 10
    · simp only [h10, if_true] at hc
      rw [List.mem_singleton] at hc
      subst hc
      exact isDigitCh_digitChar n h10
    · simp only [h10, if_false] at hc
      rcases List.mem_append.mp hc with h1 | h2
      · exact ih (n / 10) c h1
      · rw [List.mem_singleton] at h2
        subst h2
        exact isDigitCh_digitChar (n % 10) (Nat.mod_lt n (by omega))

/-- `natDigits` produces only digit characters. -/
theorem natDigits_digits (n : Nat) (c : Char) (hc : c ∈ natDigits n) : isDigitCh c = true :=
  natDigitsAux_digits (n + 1) n c hc

/-- `digitsVal` over an appended final digit. -/
theorem digitsVal_append_one (l : List Char) (c : Char) :
    digitsVal (l ++ [c]) = digitsVal l * 10 + (c.toNat - 48) := by
  rw [digitsVal, digitsVal, List.foldl_append]
  rfl

/-- Round trip: the numeric value of the decimal digits of `n` is `n`. -/
theorem digitsVal_natDigitsAux : ∀ (fuel n : Nat), n < fuel →
    digitsVal (natDigitsAux fuel n) = n := by
  intro fuel
  induction fuel with
  | zero => intro n h; exact absurd h (Nat.not_lt_zero _)
  | succ f ih =>
    intro n h
    rw [natDigitsAux]
    by_cases h10 : n < 10
    · simp only [h10, if_true]
      rw [digitsVal, List.foldl_cons, digitChar_toNat n h10]
      simp [digitsVal]
    · simp only [h10, if_false]
      rw [digitsVal_append_one]
      have hd : n / 10 < f := by
        have : n / 10 < n := Nat.div_lt_self (by omega) (by omega)
        omega
      rw [ih (n / 10) hd, digitChar_toNat (n % 10) (Nat.mod_lt n (by omega))]
      omega

/-- Round trip for `natDigits`. -/
theorem digitsVal_natDigits (n : Nat) : digitsVal (natDigits n) = n :=
  digitsVal_natDigitsAux (n + 1) n (Nat.lt_succ_self n)

/-- `natDigits` is injective. -/
theorem natDigits_inj (a b : Nat) (h : natDigits a = natDigits b) : a = b := by
  have ha := digitsVal_natDigits a
  have hb := digitsVal_natDigits b
  rw [h] at ha
  rw [hb] at ha
  exact ha.symm

/-- Cancellation of maximal digit runs: if two digit runs followed by
non-digit-headed tails concatenate to the same list, the runs and the tails
agree. -/
theorem digitRun_cancel : ∀ (l1 l2 r1 r2 : List Char),
    (∀ c ∈ l1, isDigitCh c = true) → (∀ c ∈ l2, isDigitCh c = true) →
    (∀ c, r1.head? = some c → isDigitCh c = false) →
    (∀ c, r2.head? = some c → isDigitCh c = false) →
    l1 ++ r1 = l2 ++ r2 → l1 = l2 ∧ r1 = r2 := by
  intro l1
  induction l1 with
  | nil =>
    intro l2 r1 r2 _ hd2 hr1 _ heq
    cases l2 with
    | nil => exact ⟨rfl, heq⟩
    | cons c l2 =>
      rw [List.nil_append] at heq
      have hc : isDigitCh c = false := hr1 c (by rw [heq]; rfl)
      have hc2 : isDigitCh c = true := hd2 c (by simp)
      rw [hc] at hc2
      cases hc2
  | cons c l1 ih =>
    intro l2 r1 r2 hd1 hd2 hr1 hr2 heq
    cases l2 with
    | nil =>
      rw [List.nil_append] at heq
      have hc : isDigitCh c = false := hr2 c (by rw [← heq]; rfl)
      have hc2 : isDigitCh c = true := hd1 c (by simp)
      rw [hc] at hc2
      cases hc2
    | cons d l2 =>
      rw [List.cons_append, List.cons_append] at heq
      obtain ⟨hcd, htail⟩ := List.cons.inj heq
      obtain ⟨h1, h2⟩ := ih l2 r1 r2 (fun x hx => hd1 x (by simp [hx]))
        (fun x hx => hd2 x (by simp [hx])) hr1 hr2 htail
      exact ⟨by rw [hcd, h1], h2⟩

/-- C7 counterexample: the fingerprints of two executions of the identical
temporary-file expression are equal, yet the paths produced at two
different milliseconds differ — the path is not a function of the
fingerprint alone, and identical content does not in general reuse one
file. -/
theorem c7_counterexample_path_depends_on_time :
    hashExpression (.temporaryFile "hello") = hashExpression (.temporaryFile "hello") ∧
      tempFilePath "/tmp".data 0 (.temporaryFile "hello") ≠
        tempFilePath "/tmp".data 1 (.temporaryFile "hello") :=
  ⟨rfl, by decide⟩

/-- C7 amended: within one run the temporary-file path is a deterministic
function of the expression's fingerprint and of the millisecond timestamp at
execution: equal fingerprints executed at the same millisecond reuse the
same path, and conversely equal paths force both the same timestamp and the
same fingerprint — so identical content executed at different milliseconds
gets different paths. -/
theorem c7_amended_temp_path_time_and_fingerprint :
    ∀ (tmpDir : List Char) (e1 e2 : GluesonExpression),
      (∀ nowMs : Nat, hashExpression e1 = hashExpression e2 →
        tempFilePath tmpDir nowMs e1 = tempFilePath tmpDir nowMs e2) ∧
      (∀ t1 t2 : Nat, tempFilePath tmpDir t1 e1 = tempFilePath tmpDir t2 e2 →
        t1 = t2 ∧ hashExpression e1 = hashExpression e2) := by
  intro tmpDir e1 e2
  constructor
  · intro nowMs h
    rw [tempFilePath, tempFilePath, h]
  · intro t1 t2 h
    rw [tempFilePath, tempFilePath] at h
    have h1 := List.append_cancel_left h
    have h2 := (List.cons.inj h1).2
    rw [List.append_assoc, List.append_assoc] at h2
    have h3 := List.append_cancel_left h2
    have h4 := digitRun_cancel (natDigits t1) (natDigits t2)
      ('-' :: hashExpression e1) ('-' :: hashExpression e2)
      (natDigits_digits t1) (natDigits_digits t2)
      (by intro c hc; rw [List.head?_cons] at hc; cases hc; decide)
      (by intro c hc; rw [List.head?_cons] at hc; cases hc; decide) h3
    exact ⟨natDigits_inj t1 t2 h4.1, (List.cons.inj h4.2).2⟩

/-- Witness for C7 amended at the concrete expression with content `"a"`,
scratch directory `/tmp` and timestamp 5. -/
theorem c7_amended_temp_path_time_and_fingerprint_witness :
    tempFilePath "/tmp".data 5 (.temporaryFile "a") =
        tempFilePath "/tmp".data 5 (.temporaryFile "a") ∧
      (5 = 5 ∧ hashExpression (.temporaryFile "a") = hashExpression (.temporaryFile "a")) :=
  ⟨(c7_amended_temp_path_time_and_fingerprint "/tmp".data
      (.temporaryFile "a") (.temporaryFile "a")).1 5 rfl,
    (c7_amended_temp_path_time_and_fingerprint "/tmp".data
      (.temporaryFile "a") (.temporaryFile "a")).2 5 5 rfl⟩

/-- Characters with equal code points are equal. -/
theorem charToNat_inj (a b : Char) (h : a.toNat = b.toNat) : a = b :=
  Char.ext (UInt32.ext h)

/-- `charListLe` is total. -/
theorem charListLe_total : ∀ a b : List Char, charListLe a b = false → charListLe b a = true := by
  intro a
  induction a with
  | nil => intro b h; rw [charListLe] at h; cases h
  | cons c cs ih =>
    intro b h
    cases b with
    | nil => rfl
    | cons d ds =>
      rw [charListLe] at h
      rw [charListLe]
      by_cases h1 : c.toNat < d.toNat
      · simp [h1] at h
      · simp only [h1, if_false] at h
        by_cases h2 : d.toNat < c.toNat
        · simp [h2]
        · simp only [h2, if_false] at h
          simp only [h1, h2, if_false]
          exact ih ds h

/-- `charListLe` both ways forces equality. -/
theorem charListLe_antisymm : ∀ a b : List Char,
    charListLe a b = true → charListLe b a = true → a = b := by
  intro a
  induction a with
  | nil =>
    intro b _ hba
    cases b with
    | nil => rfl
    | cons d ds => rw [charListLe] at hba; cases hba
  | cons c cs ih =>
    intro b hab hba
    cases b with
    | nil => rw [charListLe] at hab; cases hab
    | cons d ds =>
      rw [charListLe] at hab hba
      by_cases h1 : c.toNat < d.toNat
      · have h2 : ¬d.toNat < c.toNat := by omega
        simp only [h2, if_false, h1, if_true] at hba
        simp [h1] at hba
      · by_cases h2 : d.toNat < c.toNat
        · simp [h1, h2] at hab
        · simp only [h1, h2, if_false] at hab hba
          have hcd : c = d := charToNat_inj c d (by omega)
          rw [hcd, ih ds hab hba]

/-- `strLe` is total. -/
theorem strLe_total (a b : String) (h : strLe a b = false) : strLe b a = true :=
  charListLe_total a.data b.data h

/-- `strLe` both ways forces equality. -/
theorem strLe_antisymm (a b : String) (hab : strLe a b = true) (hba : strLe b a = true) :
    a = b := by
  have h := charListLe_antisymm a.data b.data hab hba
  cases a
  cases b
  exact congrArg (fun l => ({ data := l } : String)) h

/-- Inserting a field permutes a cons. -/
theorem insertField_perm (p : String × Glueson) : ∀ l, (insertField p l).Perm (p :: l) := by
  intro l
  induction l with
  | nil => exact List.Perm.refl _
  | cons q qs ih =>
    rw [insertField]
    by_cases h : strLe p.1 q.1 = true
    · simp only [h, if_true]
      exact List.Perm.refl _
    · simp only [h, if_false]
      exact List.Perm.trans (List.Perm.cons q ih) (List.Perm.swap p q qs)

/-- The sorted fields are a permutation of the fields. -/
theorem sortFields_perm : ∀ l, (sortFields l).Perm l := by
  intro l
  induction l with
  | nil => exact List.Perm.refl _
  | cons p ps ih =>
    rw [sortFields]
    exact List.Perm.trans (insertField_perm p (sortFields ps)) (List.Perm.cons p ih)

/-- `charListLe` is transitive. -/
theorem charListLe_trans : ∀ a b c : List Char,
    charListLe a b = true → charListLe b c = true → charListLe a c = true := by
  intro a
  induction a with
  | nil => intro b c _ _; rfl
  | cons x xs ih =>
    intro b c hab hbc
    cases b with
    | nil => rw [charListLe] at hab; cases hab
    | cons y ys =>
      cases c with
      | nil => rw [charListLe] at hbc; cases hbc
      | cons z zs =>
        rw [charListLe] at hab hbc ⊢
        by_cases h1 : x.toNat < y.toNat
        · by_cases h2 : y.toNat < z.toNat
          · have h : x.toNat < z.toNat := by omega
            simp [h]
          · by_cases h3 : z.toNat < y.toNat
            · simp [h2, h3] at hbc
            · have h : x.toNat < z.toNat := by omega
              simp [h]
        · by_cases h1b : y.toNat < x.toNat
          · simp [h1, h1b] at hab
          · by_cases h2 : y.toNat < z.toNat
            · have h : x.toNat < z.toNat := by omega
              simp [h]
            · by_cases h3 : z.toNat < y.toNat
              · simp [h2, h3] at hbc
              · have h4 : ¬x.toNat < z.toNat := by omega
                have h5 : ¬z.toNat < x.toNat := by omega
                simp only [h4, h5, if_false]
                simp only [h1, h1b, if_false] at hab
                simp only [h2, h3, if_false] at hbc
                exact ih ys zs hab hbc

/-- `strLe` is transitive. -/
theorem strLe_trans (a b c : String) (hab : strLe a b = true) (hbc : strLe b c = true) :
    strLe a c = true :=
  charListLe_trans a.data b.data c.data hab hbc

/-- Insertion preserves sortedness by key. -/
theorem insertField_sorted (p : String × Glueson) : ∀ l, List.Pairwise leKey l →
    List.Pairwise leKey (insertField p l) := by
  intro l
  induction l with
  | nil => intro _; exact List.pairwise_singleton _ _
  | cons q qs ih =>
    intro hs
    rw [List.pairwise_cons] at hs
    rw [insertField]
    by_cases h : strLe p.1 q.1 = true
    · rw [if_pos h]
      rw [List.pairwise_cons]
      constructor
      · intro x hx
        rcases List.mem_cons.mp hx with h1 | h2
        · subst h1; exact h
        · exact strLe_trans p.1 q.1 x.1 h (hs.1 x h2)
      · rw [List.pairwise_cons]
        exact hs
    · rw [if_neg h]
      rw [List.pairwise_cons]
      constructor
      · intro x hx
        have hx2 := (insertField_perm p qs).mem_iff.mp hx
        rcases List.mem_cons.mp hx2 with h1 | h2
        · rw [h1]
          exact strLe_total p.1 q.1 (Bool.eq_false_iff.mpr h)
        · exact hs.1 x h2
      · exact ih hs.2

/-- Sorting yields a list sorted by key. -/
theorem sortFields_sorted : ∀ l, List.Pairwise leKey (sortFields l) := by
  intro l
  induction l with
  | nil => exact List.Pairwise.nil
  | cons p ps ih =>
    rw [sortFields]
    exact insertField_sorted p (sortFields ps) ih

/-- `strNodup` unfolds over a cons. -/
theorem strNodup_cons (s : String) (ss : List String) :
    strNodup (s :: ss) = true ↔ (∀ t ∈ ss, t ≠ s) ∧ strNodup ss = true := by
  rw [strNodup]
  simp [List.any_eq_true]

/-- `strNodup` is the Boolean form of `List.Nodup`. -/
theorem strNodup_iff_nodup : ∀ l : List String, strNodup l = true ↔ l.Nodup := by
  intro l
  induction l with
  | nil => simp [strNodup]
  | cons s ss ih =>
    rw [strNodup_cons, List.nodup_cons, ih]
    constructor
    · intro ⟨h1, h2⟩
      exact ⟨fun hmem => h1 s hmem rfl, h2⟩
    · intro ⟨h1, h2⟩
      exact ⟨fun t ht hts => h1 (hts ▸ ht), h2⟩

/-- Two key-sorted permutations with duplicate-free keys are equal. -/
theorem sorted_perm_nodup_eq : ∀ (l1 l2 : List (String × Glueson)),
    List.Pairwise leKey l1 → List.Pairwise leKey l2 → l1.Perm l2 →
    strNodup (l1.map Prod.fst) = true → l1 = l2 := by
  intro l1
  induction l1 with
  | nil =>
    intro l2 _ _ hp _
    exact List.Perm.nil_eq hp
  | cons p l1 ih =>
    intro l2 hs1 hs2 hp hnd
    cases l2 with
    | nil => cases hp.symm.nil_eq
    | cons q l2 =>
      rw [List.pairwise_cons] at hs1 hs2
      by_cases hpq : p = q
      · subst hpq
        have hrest := hp.cons_inv
        have hnd2 : strNodup (l1.map Prod.fst) = true := by
          rw [List.map_cons, strNodup_cons] at hnd
          exact hnd.2
        rw [ih l2 hs1.2 hs2.2 hrest hnd2]
      · exfalso
        have hpmem : p ∈ q :: l2 := hp.mem_iff.mp (List.mem_cons_self p l1)
        have hqmem : q ∈ p :: l1 := hp.symm.mem_iff.mp (List.mem_cons_self q l2)
        have hp2 : p ∈ l2 := by
          rcases List.mem_cons.mp hpmem with h1 | h2
          · exact absurd h1 hpq
          · exact h2
        have hq1 : q ∈ l1 := by
          rcases List.mem_cons.mp hqmem with h1 | h2
          · exact absurd h1.symm hpq
          · exact h2
        have hle1 : strLe p.1 q.1 = true := hs1.1 q hq1
        have hle2 : strLe q.1 p.1 = true := hs2.1 p hp2
        have hkey : p.1 = q.1 := strLe_antisymm p.1 q.1 hle1 hle2
        rw [List.map_cons, strNodup_cons] at hnd
        exact hnd.1 q.1 (List.mem_map_of_mem Prod.fst hq1) hkey.symm

/-- Every value has positive size. -/
theorem gsize_pos : ∀ g : Glueson, 1 ≤ gsize g := by
  intro g
  cases g <;> rw [gsize] <;> omega

/-- An element weighs at most its list. -/
theorem gsize_mem_list : ∀ (xs : List Glueson) (x : Glueson), x ∈ xs →
    gsize x ≤ gsizeList xs := by
  intro xs
  induction xs with
  | nil => intro x hx; simp at hx
  | cons y ys ih =>
    intro x hx
    rw [gsizeList]
    rcases List.mem_cons.mp hx with h1 | h2
    · subst h1; omega
    · have := ih x h2; omega

/-- A field value weighs at most its field list. -/
theorem gsize_mem_fields : ∀ (fs : List (String × Glueson)) (p : String × Glueson),
    p ∈ fs → gsize p.2 ≤ gsizeFields fs := by
  intro fs
  induction fs with
  | nil => intro p hp; simp at hp
  | cons q qs ih =>
    intro p hp
    obtain ⟨k, v⟩ := q
    rw [gsizeFields]
    rcases List.mem_cons.mp hp with h1 | h2
    · rw [h1]; exact Nat.le_add_right _ _
    · have := ih p h2; omega

/-- Pointwise reflexivity gives list reflexivity for `KeyPermList`. -/
theorem keyPermList_of_ptw : ∀ xs : List Glueson, (∀ x ∈ xs, KeyPerm x x) →
    KeyPermList xs xs := by
  intro xs
  induction xs with
  | nil => intro _; exact KeyPermList.nil
  | cons x xs ih =>
    intro h
    exact KeyPermList.cons (h x (by simp)) (ih (fun y hy => h y (by simp [hy])))

/-- Pointwise reflexivity gives fields reflexivity for `KeyPermFields`. -/
theorem keyPermFields_of_ptw : ∀ fs : List (String × Glueson), (∀ p ∈ fs, KeyPerm p.2 p.2) →
    KeyPermFields fs fs := by
  intro fs
  induction fs with
  | nil => intro _; exact KeyPermFields.nil
  | cons p fs ih =>
    intro h
    obtain ⟨k, v⟩ := p
    exact KeyPermFields.cons (h (k, v) (by simp)) (ih (fun q hq => h q (by simp [hq])))

/-- `KeyPerm` is reflexive (size-bounded induction). -/
theorem keyPerm_refl_aux : ∀ (n : Nat) (g : Glueson), gsize g ≤ n → KeyPerm g g := by
  intro n
  induction n with
  | zero => intro g hg; have := gsize_pos g; omega
  | succ n ih =>
    intro g hg
    cases g with
    | str s => exact KeyPerm.str s
    | num m => exact KeyPerm.num m
    | bool b => exact KeyPerm.bool b
    | null => exact KeyPerm.null
    | undef => exact KeyPerm.undef
    | arr items =>
      refine KeyPerm.arr (keyPermList_of_ptw items (fun x hx => ih x ?_))
      have h1 := gsize_mem_list items x hx
      rw [gsize] at hg
      omega
    | obj fields =>
      refine KeyPerm.obj (keyPermFields_of_ptw fields (fun p hp => ih p.2 ?_))
        (List.Perm.refl fields)
      have h1 := gsize_mem_fields fields p hp
      rw [gsize] at hg
      omega

/-- `KeyPerm` is reflexive. -/
theorem keyPerm_refl (g : Glueson) : KeyPerm g g :=
  keyPerm_refl_aux (gsize g) g (Nat.le_refl _)

/-- Pointwise reflexivity gives list reflexivity for `ArrPermList`. -/
theorem arrPermList_of_ptw : ∀ xs : List Glueson, (∀ x ∈ xs, ArrPerm x x) →
    ArrPermList xs xs := by
  intro xs
  induction xs with
  | nil => intro _; exact ArrPermList.nil
  | cons x xs ih =>
    intro h
    exact ArrPermList.cons (h x (by simp)) (ih (fun y hy => h y (by simp [hy])))

/-- Pointwise reflexivity gives fields reflexivity for `ArrPermFields`. -/
theorem arrPermFields_of_ptw : ∀ fs : List (String × Glueson), (∀ p ∈ fs, ArrPerm p.2 p.2) →
    ArrPermFields fs fs := by
  intro fs
  induction fs with
  | nil => intro _; exact ArrPermFields.nil
  | cons p fs ih =>
    intro h
    obtain ⟨k, v⟩ := p
    exact ArrPermFields.cons (h (k, v) (by simp)) (ih (fun q hq => h q (by simp [hq])))

/-- `ArrPerm` is reflexive (size-bounded induction). -/
theorem arrPerm_refl_aux : ∀ (n : Nat) (g : Glueson), gsize g ≤ n → ArrPerm g g := by
  intro n
  induction n with
  | zero => intro g hg; have := gsize_pos g; omega
  | succ n ih =>
    intro g hg
    cases g with
    | str s => exact ArrPerm.str s
    | num m => exact ArrPerm.num m
    | bool b => exact ArrPerm.bool b
    | null => exact ArrPerm.null
    | undef => exact ArrPerm.undef
    | arr items =>
      refine ArrPerm.arr (arrPermList_of_ptw items (fun x hx => ih x ?_))
        (List.Perm.refl items)
      have h1 := gsize_mem_list items x hx
      rw [gsize] at hg
      omega
    | obj fields =>
      refine ArrPerm.obj (arrPermFields_of_ptw fields (fun p hp => ih p.2 ?_))
      have h1 := gsize_mem_fields fields p hp
      rw [gsize] at hg
      omega

/-- `ArrPerm` is reflexive. -/
theorem arrPerm_refl (g : Glueson) : ArrPerm g g :=
  arrPerm_refl_aux (gsize g) g (Nat.le_refl _)

/-- `canonFields` is a value-wise map. -/
theorem canonFields_eq_map : ∀ fs : List (String × Glueson),
    canonFields fs = fs.map (fun p => (p.1, canon p.2)) := by
  intro fs
  induction fs with
  | nil => rfl
  | cons p fs ih =>
    obtain ⟨k, v⟩ := p
    rw [canonFields, ih]
    rfl

/-- `canonList` is a map. -/
theorem canonList_eq_map : ∀ xs : List Glueson, canonList xs = xs.map canon := by
  intro xs
  induction xs with
  | nil => rfl
  | cons x xs ih => rw [canonList, ih]; rfl

/-- `canonFields` preserves the key list. -/
theorem canonFields_keys : ∀ fs : List (String × Glueson),
    (canonFields fs).map Prod.fst = fs.map Prod.fst := by
  intro fs
  rw [canonFields_eq_map, List.map_map]
  rfl

/-- Fieldwise-related field lists share their key list. -/
theorem keyPermFields_keys : ∀ fs ms : List (String × Glueson), KeyPermFields fs ms →
    fs.map Prod.fst = ms.map Prod.fst := by
  intro fs
  induction fs with
  | nil => intro ms h; cases h; rfl
  | cons p fs ih =>
    intro ms h
    cases h with
    | cons hv ht => rw [List.map_cons, List.map_cons, ih _ ht]

/-- `wfList` holds exactly when `wf` holds on every element. -/
theorem wfList_iff_all : ∀ xs : List Glueson, wfList xs = true ↔ ∀ x ∈ xs, wf x = true := by
  intro xs
  induction xs with
  | nil => simp [wfList]
  | cons x xs ih => simp [wfList, ih]

/-- `wfFields` holds exactly when `wf` holds on every field value. -/
theorem wfFields_iff_all : ∀ fs : List (String × Glueson),
    wfFields fs = true ↔ ∀ p ∈ fs, wf p.2 = true := by
  intro fs
  induction fs with
  | nil => simp [wfFields]
  | cons p fs ih =>
    obtain ⟨k, v⟩ := p
    simp [wfFields, ih]

/-- Pointwise canon-relatedness of the fields. -/
theorem keyPermFields_canon_ptw : ∀ fs : List (String × Glueson),
    (∀ p ∈ fs, KeyPerm p.2 (canon p.2)) → KeyPermFields fs (canonFields fs) := by
  intro fs
  induction fs with
  | nil => intro _; exact KeyPermFields.nil
  | cons p fs ih =>
    intro h
    obtain ⟨k, v⟩ := p
    rw [canonFields]
    exact KeyPermFields.cons (h (k, v) (by simp)) (ih (fun q hq => h q (by simp [hq])))

/-- Pointwise canon-relatedness of list elements. -/
theorem keyPermList_canon_ptw : ∀ xs : List Glueson,
    (∀ x ∈ xs, KeyPerm x (canon x)) → KeyPermList xs (canonList xs) := by
  intro xs
  induction xs with
  | nil => intro _; exact KeyPermList.nil
  | cons x xs ih =>
    intro h
    rw [canonList]
    exact KeyPermList.cons (h x (by simp)) (ih (fun y hy => h y (by simp [hy])))

/-- Every value is key-reorder-equal to its canonical form (size-bounded
induction). -/
theorem keyPerm_canon_aux : ∀ (n : Nat) (g : Glueson), gsize g ≤ n → KeyPerm g (canon g) := by
  intro n
  induction n with
  | zero => intro g hg; have := gsize_pos g; omega
  | succ n ih =>
    intro g hg
    cases g with
    | str s => exact KeyPerm.str s
    | num m => exact KeyPerm.num m
    | bool b => exact KeyPerm.bool b
    | null => exact KeyPerm.null
    | undef => exact KeyPerm.undef
    | arr items =>
      rw [canon]
      refine KeyPerm.arr (keyPermList_canon_ptw items (fun x hx => ih x ?_))
      have h1 := gsize_mem_list items x hx
      rw [gsize] at hg
      omega
    | obj fields =>
      rw [canon]
      refine KeyPerm.obj (keyPermFields_canon_ptw fields (fun p hp => ih p.2 ?_))
        (sortFields_perm (canonFields fields)).symm
      have h1 := gsize_mem_fields fields p hp
      rw [gsize] at hg
      omega

/-- Every value is key-reorder-equal to its canonical form. -/
theorem keyPerm_canon (g : Glueson) : KeyPerm g (canon g) :=
  keyPerm_canon_aux (gsize g) g (Nat.le_refl _)

/-- Fieldwise-related field lists have equal canonical fields, given the
value-level congruence. -/
theorem canonFields_congr : ∀ fs ms : List (String × Glueson),
    (∀ p ∈ fs, ∀ w, wf p.2 = true → KeyPerm p.2 w → canon p.2 = canon w) →
    wfFields fs = true → KeyPermFields fs ms → canonFields fs = canonFields ms := by
  intro fs
  induction fs with
  | nil => intro ms _ _ h; cases h; rfl
  | cons p fs ih =>
    intro ms hptw hwf h
    obtain ⟨k, v⟩ := p
    cases h with
    | cons hv ht =>
      rw [wfFields] at hwf
      simp only [Bool.and_eq_true] at hwf
      rw [canonFields, canonFields]
      rw [hptw (k, v) (by simp) _ hwf.1 hv]
      rw [ih _ (fun q hq => hptw q (by simp [hq])) hwf.2 ht]

/-- Elementwise-related lists have equal canonical lists, given the
value-level congruence. -/
theorem canonList_congr : ∀ xs ys : List Glueson,
    (∀ x ∈ xs, ∀ w, wf x = true → KeyPerm x w → canon x = canon w) →
    wfList xs = true → KeyPermList xs ys → canonList xs = canonList ys := by
  intro xs
  induction xs with
  | nil => intro ys _ _ h; cases h; rfl
  | cons x xs ih =>
    intro ys hptw hwf h
    cases h with
    | cons hv ht =>
      rw [wfList] at hwf
      simp only [Bool.and_eq_true] at hwf
      rw [canonList, canonList]
      rw [hptw x (by simp) _ hwf.1 hv]
      rw [ih _ (fun y hy => hptw y (by simp [hy])) hwf.2 ht]

/-- Soundness of canonicalization: key-reorder-equal well-formed values have
the same canonical form (size-bounded induction). -/
theorem keyPerm_canon_eq_aux : ∀ (n : Nat) (g1 g2 : Glueson), gsize g1 ≤ n →
    wf g1 = true → KeyPerm g1 g2 → canon g1 = canon g2 := by
  intro n
  induction n with
  | zero => intro g1 g2 hg _ _; have := gsize_pos g1; omega
  | succ n ih =>
    intro g1 g2 hg hwf hkp
    cases hkp with
    | str s => rfl
    | num m => rfl
    | bool b => rfl
    | null => rfl
    | undef => rfl
    | @arr xs ys hl =>
      rw [canon, canon]
      refine congrArg Glueson.arr ?_
      rw [wf] at hwf
      rw [gsize] at hg
      refine canonList_congr xs ys (fun x hx w hw hk => ih x w ?_ hw hk) hwf hl
      have h1 := gsize_mem_list xs x hx
      omega
    | @obj fs ms gs hf hperm =>
      rw [canon, canon]
      refine congrArg Glueson.obj ?_
      rw [wf] at hwf
      rw [gsize] at hg
      simp only [Bool.and_eq_true] at hwf
      have h1 : canonFields fs = canonFields ms := by
        refine canonFields_congr fs ms (fun p hp w hw hk => ih p.2 w ?_ hw hk) hwf.2 hf
        have h2 := gsize_mem_fields fs p hp
        omega
      have h2 : (canonFields ms).Perm (canonFields gs) := by
        rw [canonFields_eq_map, canonFields_eq_map]
        exact hperm.map _
      have h3 : (canonFields fs).Perm (canonFields gs) := by
        rw [h1]
        exact h2
      have hperm3 : (sortFields (canonFields fs)).Perm (sortFields (canonFields gs)) :=
        (sortFields_perm _).trans (h3.trans (sortFields_perm _).symm)
      apply sorted_perm_nodup_eq _ _ (sortFields_sorted _) (sortFields_sorted _) hperm3
      rw [strNodup_iff_nodup]
      have hnd : ((sortFields (canonFields fs)).map Prod.fst).Perm (fs.map Prod.fst) := by
        have h4 := (sortFields_perm (canonFields fs)).map Prod.fst
        rw [canonFields_keys] at h4
        exact h4
      rw [hnd.nodup_iff]
      rw [← strNodup_iff_nodup]
      exact hwf.1

/-- Soundness of canonicalization. -/
theorem keyPerm_canon_eq (g1 g2 : Glueson) (hwf : wf g1 = true) (h : KeyPerm g1 g2) :
    canon g1 = canon g2 :=
  keyPerm_canon_eq_aux (gsize g1) g1 g2 (Nat.le_refl _) hwf h

/-- A permutation before a fieldwise relation can be commuted to after it. -/
theorem perm_keyPermFields : ∀ {A B : List (String × Glueson)}, A.Perm B →
    ∀ C, KeyPermFields B C → ∃ D, KeyPermFields A D ∧ D.Perm C := by
  intro A B hp
  induction hp with
  | nil =>
    intro C h
    cases h
    exact ⟨[], KeyPermFields.nil, List.Perm.nil⟩
  | @cons x l1 l2 hp ih =>
    intro C h
    cases h with
    | @cons k v w l2' C' hv ht =>
      obtain ⟨D', hD, hDp⟩ := ih C' ht
      exact ⟨(k, w) :: D', KeyPermFields.cons hv hD, List.Perm.cons (k, w) hDp⟩
  | @swap x y l =>
    intro C h
    cases h with
    | @cons kx vx wx _ C1 hv1 ht1 =>
      cases ht1 with
      | @cons ky vy wy _ C2 hv2 ht2 =>
        refine ⟨(ky, wy) :: (kx, wx) :: C2,
          KeyPermFields.cons hv2 (KeyPermFields.cons hv1 ht2), ?_⟩
        exact List.Perm.swap (kx, wx) (ky, wy) C2
  | @trans l1 l2 l3 p1 p2 ih1 ih2 =>
    intro C h
    obtain ⟨D2, hD2, hD2p⟩ := ih2 C h
    obtain ⟨D1, hD1, hD1p⟩ := ih1 D2 hD2
    exact ⟨D1, hD1, hD1p.trans hD2p⟩

/-- Pointwise symmetry lifts to `KeyPermFields`. -/
theorem keyPermFields_symm_ptw : ∀ fs ms : List (String × Glueson),
    (∀ p ∈ fs, ∀ w, KeyPerm p.2 w → KeyPerm w p.2) →
    KeyPermFields fs ms → KeyPermFields ms fs := by
  intro fs
  induction fs with
  | nil => intro ms _ h; cases h; exact KeyPermFields.nil
  | cons p fs ih =>
    intro ms hptw h
    obtain ⟨k, v⟩ := p
    cases h with
    | cons hv ht =>
      exact KeyPermFields.cons (hptw (k, v) (by simp) _ hv)
        (ih _ (fun q hq => hptw q (by simp [hq])) ht)

/-- Pointwise symmetry lifts to `KeyPermList`. -/
theorem keyPermList_symm_ptw : ∀ xs ys : List Glueson,
    (∀ x ∈ xs, ∀ w, KeyPerm x w → KeyPerm w x) →
    KeyPermList xs ys → KeyPermList ys xs := by
  intro xs
  induction xs with
  | nil => intro ys _ h; cases h; exact KeyPermList.nil
  | cons x xs ih =>
    intro ys hptw h
    cases h with
    | cons hv ht =>
      exact KeyPermList.cons (hptw x (by simp) _ hv)
        (ih _ (fun y hy => hptw y (by simp [hy])) ht)

/-- `KeyPerm` is symmetric (size-bounded induction). -/
theorem keyPerm_symm_aux : ∀ (n : Nat) (g1 g2 : Glueson), gsize g1 ≤ n →
    KeyPerm g1 g2 → KeyPerm g2 g1 := by
  intro n
  induction n with
  | zero => intro g1 g2 hg _; have := gsize_pos g1; omega
  | succ n ih =>
    intro g1 g2 hg hkp
    cases hkp with
    | str s => exact KeyPerm.str s
    | num m => exact KeyPerm.num m
    | bool b => exact KeyPerm.bool b
    | null => exact KeyPerm.null
    | undef => exact KeyPerm.undef
    | @arr xs ys hl =>
      rw [gsize] at hg
      refine KeyPerm.arr (keyPermList_symm_ptw xs ys (fun x hx w hw => ih x w ?_ hw) hl)
      have h1 := gsize_mem_list xs x hx
      omega
    | @obj fs ms gs hf hperm =>
      rw [gsize] at hg
      have hsm : KeyPermFields ms fs := by
        refine keyPermFields_symm_ptw fs ms (fun p hp w hw => ih p.2 w ?_ hw) hf
        have h1 := gsize_mem_fields fs p hp
        omega
      obtain ⟨D, hD, hDp⟩ := perm_keyPermFields hperm.symm fs hsm
      exact KeyPerm.obj hD hDp

/-- `KeyPerm` is symmetric. -/
theorem keyPerm_symm {g1 g2 : Glueson} (h : KeyPerm g1 g2) : KeyPerm g2 g1 :=
  keyPerm_symm_aux (gsize g1) g1 g2 (Nat.le_refl _) h

/-- Pointwise transitivity lifts to `KeyPermFields`. -/
theorem keyPermFields_trans_ptw : ∀ fs ms ns : List (String × Glueson),
    (∀ p ∈ fs, ∀ w u, KeyPerm p.2 w → KeyPerm w u → KeyPerm p.2 u) →
    KeyPermFields fs ms → KeyPermFields ms ns → KeyPermFields fs ns := by
  intro fs
  induction fs with
  | nil => intro ms ns _ h1 h2; cases h1; cases h2; exact KeyPermFields.nil
  | cons p fs ih =>
    intro ms ns hptw h1 h2
    obtain ⟨k, v⟩ := p
    cases h1 with
    | cons hv ht =>
      cases h2 with
      | cons hv2 ht2 =>
        exact KeyPermFields.cons (hptw (k, v) (by simp) _ _ hv hv2)
          (ih _ _ (fun q hq => hptw q (by simp [hq])) ht ht2)

/-- Pointwise transitivity lifts to `KeyPermList`. -/
theorem keyPermList_trans_ptw : ∀ xs ys zs : List Glueson,
    (∀ x ∈ xs, ∀ w u, KeyPerm x w → KeyPerm w u → KeyPerm x u) →
    KeyPermList xs ys → KeyPermList ys zs → KeyPermList xs zs := by
  intro xs
  induction xs with
  | nil => intro ys zs _ h1 h2; cases h1; cases h2; exact KeyPermList.nil
  | cons x xs ih =>
    intro ys zs hptw h1 h2
    cases h1 with
    | cons hv ht =>
      cases h2 with
      | cons hv2 ht2 =>
        exact KeyPermList.cons (hptw x (by simp) _ _ hv hv2)
          (ih _ _ (fun y hy => hptw y (by simp [hy])) ht ht2)

/-- `KeyPerm` is transitive (size-bounded induction). -/
theorem keyPerm_trans_aux : ∀ (n : Nat) (g1 g2 g3 : Glueson), gsize g1 ≤ n →
    KeyPerm g1 g2 → KeyPerm g2 g3 → KeyPerm g1 g3 := by
  intro n
  induction n with
  | zero => intro g1 g2 g3 hg _ _; have := gsize_pos g1; omega
  | succ n ih =>
    intro g1 g2 g3 hg h12 h23
    cases h12 with
    | str s => exact h23
    | num m => exact h23
    | bool b => exact h23
    | null => exact h23
    | undef => exact h23
    | @arr xs ys hl =>
      rw [gsize] at hg
      cases h23 with
      | @arr _ zs hl2 =>
        refine KeyPerm.arr (keyPermList_trans_ptw xs ys zs
          (fun x hx w u hw hu => ih x w u ?_ hw hu) hl hl2)
        have h1 := gsize_mem_list xs x hx
        omega
    | @obj fs ms gs hf hperm =>
      rw [gsize] at hg
      cases h23 with
      | @obj _ ms2 gs2 hf2 hperm2 =>
        obtain ⟨E, hE, hEp⟩ := perm_keyPermFields hperm ms2 hf2
        have hFE : KeyPermFields fs E := by
          refine keyPermFields_trans_ptw fs ms E
            (fun p hp w u hw hu => ih p.2 w u ?_ hw hu) hf hE
          have h1 := gsize_mem_fields fs p hp
          omega
        exact KeyPerm.obj hFE (hEp.trans hperm2)

/-- `KeyPerm` is transitive. -/
theorem keyPerm_trans {g1 g2 g3 : Glueson} (h12 : KeyPerm g1 g2) (h23 : KeyPerm g2 g3) :
    KeyPerm g1 g3 :=
  keyPerm_trans_aux (gsize g1) g1 g2 g3 (Nat.le_refl _) h12 h23

/-- Completeness of canonicalization: equal canonical forms witness
key-reorder-equality. -/
theorem keyPerm_of_canon_eq (g1 g2 : Glueson) (h : canon g1 = canon g2) : KeyPerm g1 g2 := by
  refine keyPerm_trans (keyPerm_canon g1) ?_
  rw [h]
  exact keyPerm_symm (keyPerm_canon g2)

/-- Strings with equal character data are equal. -/
theorem stringData_inj (a b : String) (h : a.data = b.data) : a = b := by
  cases a
  cases b
  exact congrArg (fun l => ({ data := l } : String)) h

/-- Canonicalization preserves well-formedness (size-bounded induction). -/
theorem canon_wf_aux : ∀ (n : Nat) (g : Glueson), gsize g ≤ n → wf g = true →
    wf (canon g) = true := by
  intro n
  induction n with
  | zero => intro g hg _; have := gsize_pos g; omega
  | succ n ih =>
    intro g hg hwf
    cases g with
    | str s => exact hwf
    | num m => exact hwf
    | bool b => exact hwf
    | null => exact hwf
    | undef => exact hwf
    | arr items =>
      rw [canon, wf]
      rw [wf] at hwf
      rw [gsize] at hg
      rw [wfList_iff_all]
      intro x hx
      rw [canonList_eq_map] at hx
      obtain ⟨y, hy, rfl⟩ := List.mem_map.mp hx
      refine ih y ?_ ((wfList_iff_all items).mp hwf y hy)
      have h1 := gsize_mem_list items y hy
      omega
    | obj fields =>
      rw [canon, wf]
      rw [wf] at hwf
      rw [gsize] at hg
      simp only [Bool.and_eq_true] at hwf ⊢
      constructor
      · rw [strNodup_iff_nodup]
        have hkp : ((sortFields (canonFields fields)).map Prod.fst).Perm
            (fields.map Prod.fst) := by
          have h4 := (sortFields_perm (canonFields fields)).map Prod.fst
          rw [canonFields_keys] at h4
          exact h4
        rw [hkp.nodup_iff, ← strNodup_iff_nodup]
        exact hwf.1
      · rw [wfFields_iff_all]
        intro p hp
        have hp2 : p ∈ canonFields fields :=
          (sortFields_perm (canonFields fields)).mem_iff.mp hp
        rw [canonFields_eq_map] at hp2
        obtain ⟨q, hq, rfl⟩ := List.mem_map.mp hp2
        refine ih q.2 ?_ ((wfFields_iff_all fields).mp hwf.2 q hq)
        have h1 := gsize_mem_fields fields q hq
        omega

/-- Canonicalization preserves well-formedness. -/
theorem canon_wf (g : Glueson) (h : wf g = true) : wf (canon g) = true :=
  canon_wf_aux (gsize g) g (Nat.le_refl _) h

/-- Cancellation of JSON string escaping up to the closing quote. -/
theorem escape_cancel : ∀ s1 s2 r1 r2 : List Char,
    escape s1 ++ ('"' :: r1) = escape s2 ++ ('"' :: r2) → s1 = s2 ∧ r1 = r2 := by
  intro s1
  induction s1 with
  | nil =>
    intro s2 r1 r2 h
    cases s2 with
    | nil =>
      rw [escape, List.nil_append, List.nil_append] at h
      exact ⟨rfl, (List.cons.inj h).2⟩
    | cons d s2 =>
      rw [escape, escape, List.nil_append, escChar, List.append_assoc] at h
      by_cases hd : d = '"' ∨ d = '\\'
      · rw [if_pos hd] at h
        have := (List.cons.inj h).1
        exact absurd this (by decide)
      · rw [if_neg hd] at h
        have hh := (List.cons.inj h).1
        exact absurd hh.symm (fun hc => hd (Or.inl hc))
  | cons c s1 ih =>
    intro s2 r1 r2 h
    cases s2 with
    | nil =>
      rw [escape, escape, List.nil_append, escChar, List.append_assoc] at h
      by_cases hc : c = '"' ∨ c = '\\'
      · rw [if_pos hc] at h
        have := (List.cons.inj h).1
        exact absurd this (by decide)
      · rw [if_neg hc] at h
        have hh := (List.cons.inj h).1
        exact absurd hh (fun hcc => hc (Or.inl hcc))
    | cons d s2 =>
      rw [escape, escape, escChar, escChar, List.append_assoc, List.append_assoc] at h
      by_cases hc : c = '"' ∨ c = '\\'
      · by_cases hd : d = '"' ∨ d = '\\'
        · rw [if_pos hc, if_pos hd] at h
          have h1 := (List.cons.inj h).2
          have h2 := (List.cons.inj h1).1
          have h3 := (List.cons.inj h1).2
          obtain ⟨hs, hr⟩ := ih s2 r1 r2 h3
          exact ⟨by rw [h2, hs], hr⟩
        · rw [if_pos hc, if_neg hd] at h
          have h1 := (List.cons.inj h).1
          exact absurd h1.symm (fun hcc => hd (Or.inr hcc))
      · by_cases hd : d = '"' ∨ d = '\\'
        · rw [if_neg hc, if_pos hd] at h
          have h1 := (List.cons.inj h).1
          exact absurd h1 (fun hcc => hc (Or.inr hcc))
        · rw [if_neg hc, if_neg hd] at h
          have h1 := (List.cons.inj h).1
          have h2 := (List.cons.inj h).2
          obtain ⟨hs, hr⟩ := ih s2 r1 r2 h2
          exact ⟨by rw [h1, hs], hr⟩

/-- Cancellation of serialized strings: a quoted string determines itself
and its suffix. -/
theorem strChars_cancel : ∀ (a b : String) (r1 r2 : List Char),
    strChars a ++ r1 = strChars b ++ r2 → a = b ∧ r1 = r2 := by
  intro a b r1 r2 h
  rw [strChars, strChars, List.cons_append, List.cons_append,
    List.append_assoc, List.append_assoc] at h
  have h1 := (List.cons.inj h).2
  rw [List.singleton_append, List.singleton_append] at h1
  obtain ⟨hs, hr⟩ := escape_cancel a.data b.data r1 r2 h1
  exact ⟨stringData_inj a b hs, hr⟩

/-- Decimal digit lists are nonempty. -/
theorem natDigits_ne_nil : ∀ n : Nat, natDigits n ≠ [] := by
  intro n
  rw [natDigits, natDigitsAux]
  by_cases h : n < 10
  · simp [h]
  · simp [h]

/-- The empty suffix is admissible. -/
theorem delimOk_nil : DelimOk [] := by
  intro c hc
  cases hc

/-- A suffix headed by a non-digit is admissible. -/
theorem delimOk_cons (c : Char) (r : List Char) (h : isDigitCh c = false) : DelimOk (c :: r) := by
  intro d hd
  rw [List.head?_cons] at hd
  cases hd
  exact h

/-- Cancellation of serialized integers before admissible suffixes. -/
theorem intChars_cancel : ∀ (i j : Int) (r1 r2 : List Char), DelimOk r1 → DelimOk r2 →
    intChars i ++ r1 = intChars j ++ r2 → i = j ∧ r1 = r2 := by
  intro i j r1 r2 hr1 hr2 h
  cases i with
  | ofNat a =>
    cases j with
    | ofNat b =>
      rw [intChars, intChars] at h
      have hd := digitRun_cancel (natDigits a) (natDigits b) r1 r2
        (natDigits_digits a) (natDigits_digits b) hr1 hr2 h
      exact ⟨congrArg Int.ofNat (natDigits_inj a b hd.1), hd.2⟩
    | negSucc m =>
      rw [intChars, intChars, List.cons_append] at h
      obtain ⟨c, t, hct⟩ := List.exists_cons_of_ne_nil (natDigits_ne_nil a)
      rw [hct, List.cons_append] at h
      have h1 := (List.cons.inj h).1
      have h2 : isDigitCh c = true :=
        natDigits_digits a c (by rw [hct]; exact List.mem_cons_self c t)
      rw [h1] at h2
      exact absurd h2 (by decide)
  | negSucc m =>
    cases j with
    | ofNat b =>
      rw [intChars, intChars, List.cons_append] at h
      obtain ⟨c, t, hct⟩ := List.exists_cons_of_ne_nil (natDigits_ne_nil b)
      rw [hct, List.cons_append] at h
      have h1 := (List.cons.inj h).1
      have h2 : isDigitCh c = true :=
        natDigits_digits b c (by rw [hct]; exact List.mem_cons_self c t)
      rw [← h1] at h2
      exact absurd h2 (by decide)
    | negSucc m2 =>
      rw [intChars, intChars, List.cons_append, List.cons_append] at h
      have h1 := (List.cons.inj h).2
      have hd := digitRun_cancel (natDigits (m + 1)) (natDigits (m2 + 1)) r1 r2
        (natDigits_digits (m + 1)) (natDigits_digits (m2 + 1)) hr1 hr2 h1
      have hm : m = m2 := by
        have := natDigits_inj (m + 1) (m2 + 1) hd.1
        omega
      exact ⟨by rw [hm], hd.2⟩

/-- A digit character is not the quote character. -/
theorem isDigitCh_ne_quote (c : Char) (h : isDigitCh c = true) : ¬c = '"' := by
  intro heq
  rw [heq] at h
  exact absurd h (by decide)

/-- Every serialized value starts with a character whose syntactic class is
the value's class. -/
theorem ser_head_class : ∀ v : Glueson, ∃ c t, ser v = c :: t ∧ classOf c = serClass v := by
  intro v
  cases v with
  | str s => exact ⟨'"', _, rfl, rfl⟩
  | num i =>
    cases i with
    | ofNat a =>
      obtain ⟨c, t, hct⟩ := List.exists_cons_of_ne_nil (natDigits_ne_nil a)
      refine ⟨c, t, hct, ?_⟩
      have h2 : isDigitCh c = true :=
        natDigits_digits a c (by rw [hct]; exact List.mem_cons_self c t)
      rw [classOf, if_neg (isDigitCh_ne_quote c h2), if_pos (Or.inl h2)]
      rfl
    | negSucc m => exact ⟨'-', _, rfl, rfl⟩
  | bool b =>
    cases b with
    | true => exact ⟨'t', _, rfl, rfl⟩
    | false => exact ⟨'f', _, rfl, rfl⟩
  | null => exact ⟨'n', _, rfl, rfl⟩
  | undef => exact ⟨'n', _, rfl, rfl⟩
  | arr items => exact ⟨'[', _, rfl, rfl⟩
  | obj fields => exact ⟨'{', _, rfl, rfl⟩

/-- The variant class is at most 5. -/
theorem serClass_le : ∀ v : Glueson, serClass v ≤ 5 := by
  intro v
  cases v <;> rw [serClass] <;> omega

/-- Unfolding of `joinComma` over a cons. -/
theorem joinComma_cons : ∀ (a : List Char) (cs : List (List Char)),
    joinComma (a :: cs) =
      a ++ (match cs with | [] => [] | _ :: _ => ',' :: joinComma cs) := by
  intro a cs
  cases cs with
  | nil => simp [joinComma]
  | cons b cs => rfl

/-- On a well-formed (non-`undefined`) field value the chunk list unfolds as
a cons. -/
theorem serFieldChunks_cons_wf (k : String) (v : Glueson) (fs : List (String × Glueson))
    (h : wf v = true) :
    serFieldChunks ((k, v) :: fs) = (strChars k ++ (':' :: ser v)) :: serFieldChunks fs := by
  cases v with
  | undef => rw [wf] at h; cases h
  | str s => rfl
  | num n => rfl
  | bool b => rfl
  | null => rfl
  | arr items => rfl
  | obj fields => rfl

/-- Cancellation of comma-joined serialized array elements up to the closing
bracket. -/
theorem serItems_cancel : ∀ (xs ys : List Glueson) (r1 r2 : List Char),
    (∀ x ∈ xs, ∀ (w : Glueson) (r1' r2' : List Char), wf x = true → wf w = true →
      DelimOk r1' → DelimOk r2' → ser x ++ r1' = ser w ++ r2' → x = w ∧ r1' = r2') →
    wfList xs = true → wfList ys = true →
    joinComma (serItemChunks xs) ++ (']' :: r1) = joinComma (serItemChunks ys) ++ (']' :: r2) →
    xs = ys ∧ r1 = r2 := by
  intro xs
  induction xs with
  | nil =>
    intro ys r1 r2 _ _ hwy h
    cases ys with
    | nil =>
      simp only [serItemChunks, joinComma, List.nil_append] at h
      exact ⟨rfl, (List.cons.inj h).2⟩
    | cons y ys =>
      exfalso
      simp only [serItemChunks, joinComma, List.nil_append] at h
      rw [joinComma_cons, List.append_assoc] at h
      obtain ⟨c, t, hct, hc⟩ := ser_head_class y
      rw [hct, List.cons_append] at h
      have h1 := (List.cons.inj h).1
      rw [← h1] at hc
      have h2 : (6 : Nat) = serClass y := hc
      have h3 := serClass_le y
      omega
  | cons x xs ih =>
    intro ys r1 r2 hptw hwx hwy h
    cases ys with
    | nil =>
      exfalso
      simp only [serItemChunks, joinComma, List.nil_append] at h
      rw [joinComma_cons, List.append_assoc] at h
      obtain ⟨c, t, hct, hc⟩ := ser_head_class x
      rw [hct, List.cons_append] at h
      have h1 := (List.cons.inj h).1
      rw [h1] at hc
      have h2 : (6 : Nat) = serClass x := hc
      have h3 := serClass_le x
      omega
    | cons y ys =>
      rw [wfList] at hwx hwy
      simp only [Bool.and_eq_true] at hwx hwy
      simp only [serItemChunks] at h
      rw [joinComma_cons, joinComma_cons, List.append_assoc, List.append_assoc] at h
      cases xs with
      | nil =>
        cases ys with
        | nil =>
          simp only [serItemChunks, List.nil_append] at h
          obtain ⟨hxy, hr⟩ := hptw x (by simp) y (']' :: r1) (']' :: r2) hwx.1 hwy.1
            (delimOk_cons ']' r1 (by decide)) (delimOk_cons ']' r2 (by decide)) h
          exact ⟨by rw [hxy], (List.cons.inj hr).2⟩
        | cons y2 ys2 =>
          exfalso
          simp only [serItemChunks, List.nil_append] at h
          rw [List.cons_append] at h
          obtain ⟨hxy, hr⟩ := hptw x (by simp) y (']' :: r1)
            (',' :: (joinComma (serItemChunks (y2 :: ys2)) ++ (']' :: r2))) hwx.1 hwy.1
            (delimOk_cons ']' r1 (by decide)) (delimOk_cons ',' _ (by decide)) h
          have := (List.cons.inj hr).1
          exact absurd this (by decide)
      | cons x2 xs2 =>
        cases ys with
        | nil =>
          exfalso
          simp only [serItemChunks, List.nil_append] at h
          rw [List.cons_append] at h
          obtain ⟨hxy, hr⟩ := hptw x (by simp) y
            (',' :: (joinComma (serItemChunks (x2 :: xs2)) ++ (']' :: r1))) (']' :: r2)
            hwx.1 hwy.1 (delimOk_cons ',' _ (by decide)) (delimOk_cons ']' r2 (by decide)) h
          have := (List.cons.inj hr).1
          exact absurd this (by decide)
        | cons y2 ys2 =>
          simp only [serItemChunks] at h
          rw [List.cons_append, List.cons_append] at h
          obtain ⟨hxy, hr⟩ := hptw x (by simp) y
            (',' :: (joinComma (serItemChunks (x2 :: xs2)) ++ (']' :: r1)))
            (',' :: (joinComma (serItemChunks (y2 :: ys2)) ++ (']' :: r2)))
            hwx.1 hwy.1 (delimOk_cons ',' _ (by decide)) (delimOk_cons ',' _ (by decide)) h
          have htail := (List.cons.inj hr).2
          obtain ⟨hxs, hrr⟩ := ih (y2 :: ys2) r1 r2
            (fun z hz => hptw z (by simp [hz])) hwx.2 hwy.2 htail
          exact ⟨by rw [hxy, hxs], hrr⟩

/-- Cancellation of comma-joined serialized object fields up to the closing
brace. -/
theorem serFields_cancel : ∀ (fs gs : List (String × Glueson)) (r1 r2 : List Char),
    (∀ p ∈ fs, ∀ (w : Glueson) (r1' r2' : List Char), wf p.2 = true → wf w = true →
      DelimOk r1' → DelimOk r2' → ser p.2 ++ r1' = ser w ++ r2' → p.2 = w ∧ r1' = r2') →
    wfFields fs = true → wfFields gs = true →
    joinComma (serFieldChunks fs) ++ ('}' :: r1) = joinComma (serFieldChunks gs) ++ ('}' :: r2) →
    fs = gs ∧ r1 = r2 := by
  intro fs
  induction fs with
  | nil =>
    intro gs r1 r2 _ _ hwy h
    cases gs with
    | nil =>
      simp only [serFieldChunks, joinComma, List.nil_append] at h
      exact ⟨rfl, (List.cons.inj h).2⟩
    | cons q gs =>
      exfalso
      obtain ⟨k2, v2⟩ := q
      rw [wfFields] at hwy
      simp only [Bool.and_eq_true] at hwy
      rw [serFieldChunks_cons_wf k2 v2 gs hwy.1] at h
      simp only [serFieldChunks, joinComma, List.nil_append] at h
      rw [joinComma_cons, List.append_assoc, List.append_assoc, strChars,
        List.cons_append] at h
      have h1 := (List.cons.inj h).1
      exact absurd h1 (by decide)
  | cons p fs ih =>
    intro gs r1 r2 hptw hwx hwy h
    obtain ⟨k1, v1⟩ := p
    rw [wfFields] at hwx
    simp only [Bool.and_eq_true] at hwx
    rw [serFieldChunks_cons_wf k1 v1 fs hwx.1] at h
    cases gs with
    | nil =>
      exfalso
      simp only [serFieldChunks, joinComma, List.nil_append] at h
      rw [joinComma_cons, List.append_assoc, List.append_assoc, strChars,
        List.cons_append] at h
      have h1 := (List.cons.inj h).1
      exact absurd h1.symm (by decide)
    | cons q gs =>
      obtain ⟨k2, v2⟩ := q
      rw [wfFields] at hwy
      simp only [Bool.and_eq_true] at hwy
      rw [serFieldChunks_cons_wf k2 v2 gs hwy.1] at h
      rw [joinComma_cons, joinComma_cons, List.append_assoc, List.append_assoc,
        List.append_assoc, List.append_assoc, List.cons_append, List.cons_append] at h
      obtain ⟨hk, hr⟩ := strChars_cancel k1 k2 _ _ h
      have h2 := (List.cons.inj hr).2
      cases fs with
      | nil =>
        cases gs with
        | nil =>
          simp only [serFieldChunks, List.nil_append] at h2
          obtain ⟨hv, hrr⟩ := hptw (k1, v1) (by simp) v2 ('}' :: r1) ('}' :: r2)
            hwx.1 hwy.1 (delimOk_cons '}' r1 (by decide)) (delimOk_cons '}' r2 (by decide)) h2
          exact ⟨by rw [hk, show v1 = v2 from hv], (List.cons.inj hrr).2⟩
        | cons q2 gs2 =>
          exfalso
          obtain ⟨k3, v3⟩ := q2
          have hwy2 := hwy.2
          rw [wfFields] at hwy2
          simp only [Bool.and_eq_true] at hwy2
          rw [serFieldChunks_cons_wf k3 v3 gs2 hwy2.1] at h2
          simp only [serFieldChunks, List.nil_append] at h2
          rw [List.cons_append] at h2
          obtain ⟨hv, hrr⟩ := hptw (k1, v1) (by simp) v2 ('}' :: r1)
            (',' :: (joinComma ((strChars k3 ++ (':' :: ser v3)) :: serFieldChunks gs2)
              ++ ('}' :: r2)))
            hwx.1 hwy.1 (delimOk_cons '}' r1 (by decide)) (delimOk_cons ',' _ (by decide)) h2
          have := (List.cons.inj hrr).1
          exact absurd this (by decide)
      | cons p2 fs2 =>
        obtain ⟨k3, v3⟩ := p2
        have hwx2 := hwx.2
        rw [wfFields] at hwx2
        simp only [Bool.and_eq_true] at hwx2
        rw [serFieldChunks_cons_wf k3 v3 fs2 hwx2.1] at h2
        cases gs with
        | nil =>
          exfalso
          simp only [serFieldChunks, List.nil_append] at h2
          rw [List.cons_append] at h2
          obtain ⟨hv, hrr⟩ := hptw (k1, v1) (by simp) v2
            (',' :: (joinComma ((strChars k3 ++ (':' :: ser v3)) :: serFieldChunks fs2)
              ++ ('}' :: r1)))
            ('}' :: r2)
            hwx.1 hwy.1 (delimOk_cons ',' _ (by decide)) (delimOk_cons '}' r2 (by decide)) h2
          have := (List.cons.inj hrr).1
          exact absurd this (by decide)
        | cons q2 gs2 =>
          obtain ⟨k4, v4⟩ := q2
          have hwy2 := hwy.2
          rw [wfFields] at hwy2
          simp only [Bool.and_eq_true] at hwy2
          rw [serFieldChunks_cons_wf k4 v4 gs2 hwy2.1] at h2
          rw [List.cons_append, List.cons_append] at h2
          obtain ⟨hv, hrr⟩ := hptw (k1, v1) (by simp) v2
            (',' :: (joinComma ((strChars k3 ++ (':' :: ser v3)) :: serFieldChunks fs2)
              ++ ('}' :: r1)))
            (',' :: (joinComma ((strChars k4 ++ (':' :: ser v4)) :: serFieldChunks gs2)
              ++ ('}' :: r2)))
            hwx.1 hwy.1 (delimOk_cons ',' _ (by decide)) (delimOk_cons ',' _ (by decide)) h2
          have htail := (List.cons.inj hrr).2
          have htail2 : joinComma (serFieldChunks ((k3, v3) :: fs2)) ++ ('}' :: r1) =
              joinComma (serFieldChunks ((k4, v4) :: gs2)) ++ ('}' :: r2) := by
            rw [serFieldChunks_cons_wf k3 v3 fs2 hwx2.1,
              serFieldChunks_cons_wf k4 v4 gs2 hwy2.1]
            exact htail
          obtain ⟨hfs, hrr2⟩ := ih ((k4, v4) :: gs2) r1 r2
            (fun z hz => hptw z (by simp [hz])) hwx.2 hwy.2 htail2
          exact ⟨by rw [hk, show v1 = v2 from hv, hfs], hrr2⟩

/-- Cancellation of whole serialized values before admissible suffixes: on
well-formed values the model serializer is prefix-determined (size-bounded
induction). -/
theorem ser_cancel_aux : ∀ (n : Nat) (v w : Glueson) (r1 r2 : List Char), gsize v ≤ n →
    wf v = true → wf w = true → DelimOk r1 → DelimOk r2 →
    ser v ++ r1 = ser w ++ r2 → v = w ∧ r1 = r2 := by
  intro n
  induction n with
  | zero => intro v w r1 r2 hg _ _ _ _ _; have := gsize_pos v; omega
  | succ n ih =>
    intro v w r1 r2 hg hv hw hr1 hr2 h
    have hclass : serClass v = serClass w := by
      obtain ⟨c1, t1, hs1, hc1⟩ := ser_head_class v
      obtain ⟨c2, t2, hs2, hc2⟩ := ser_head_class w
      have h2 := h
      rw [hs1, hs2, List.cons_append, List.cons_append] at h2
      rw [← hc1, ← hc2, (List.cons.inj h2).1]
    cases v <;> cases w
    all_goals try (exact absurd hv (by decide))
    all_goals try (exact absurd hw (by decide))
    all_goals try (exfalso; rw [serClass, serClass] at hclass; omega)
    · rename_i s s2
      simp only [ser] at h
      obtain ⟨hs, hr⟩ := strChars_cancel s s2 r1 r2 h
      exact ⟨by rw [hs], hr⟩
    · rename_i i j
      simp only [ser] at h
      obtain ⟨hij, hr⟩ := intChars_cancel i j r1 r2 hr1 hr2 h
      exact ⟨by rw [hij], hr⟩
    · rename_i b b2
      cases b <;> cases b2
      · simp only [ser] at h
        simp at h
        exact ⟨rfl, h⟩
      · simp only [ser] at h
        simp at h
      · simp only [ser] at h
        simp at h
      · simp only [ser] at h
        simp at h
        exact ⟨rfl, h⟩
    · simp only [ser] at h
      simp at h
      exact ⟨rfl, h⟩
    · rename_i xs ys
      simp only [ser] at h
      rw [List.cons_append, List.cons_append, List.append_assoc, List.append_assoc,
        List.singleton_append, List.singleton_append] at h
      have h2 := (List.cons.inj h).2
      rw [wf] at hv hw
      rw [gsize] at hg
      obtain ⟨hxs, hr⟩ := serItems_cancel xs ys r1 r2
        (fun x hx w2 r1a r2a hwx hww hr1a hr2a hh => ih x w2 r1a r2a
          (by have := gsize_mem_list xs x hx; omega) hwx hww hr1a hr2a hh)
        hv hw h2
      exact ⟨by rw [hxs], hr⟩
    · rename_i fs gs
      simp only [ser] at h
      rw [List.cons_append, List.cons_append, List.append_assoc, List.append_assoc,
        List.singleton_append, List.singleton_append] at h
      have h2 := (List.cons.inj h).2
      rw [wf] at hv hw
      rw [gsize] at hg
      simp only [Bool.and_eq_true] at hv hw
      obtain ⟨hfs, hr⟩ := serFields_cancel fs gs r1 r2
        (fun p hp w2 r1a r2a hwp hww hr1a hr2a hh => ih p.2 w2 r1a r2a
          (by have := gsize_mem_fields fs p hp; omega) hwp hww hr1a hr2a hh)
        hv.2 hw.2 h2
      exact ⟨by rw [hfs], hr⟩

/-- On well-formed values, the model serializer is injective. -/
theorem ser_inj (v w : Glueson) (hv : wf v = true) (hw : wf w = true)
    (h : ser v = ser w) : v = w := by
  have h2 : ser v ++ ([] : List Char) = ser w ++ [] := by
    rw [List.append_nil, List.append_nil]
    exact h
  exact (ser_cancel_aux (gsize v) v w [] [] (Nat.le_refl _) hv hw delimOk_nil delimOk_nil h2).1

/-- C3 amended: for well-formed validated expressions the fingerprint is the
digest of the key-sorted canonical serialization, so (i) two expressions
equal up to reordering of mapping keys at any depth hash identically, and
(ii) two expressions differing only in the order of elements of some
sequence hash differently unless the reordering is itself absorbed by
mapping-key reordering (in which case they are key-reorder-equal and hash
identically, as the counterexample shows the original claim must allow). -/
theorem c3_amended_hasher_canonicalizes :
    ∀ e1 e2 : GluesonExpression,
      wf (encodeExpression e1) = true → wf (encodeExpression e2) = true →
        (KeyPerm (encodeExpression e1) (encodeExpression e2) →
          hashExpression e1 = hashExpression e2) ∧
        (ArrPerm (encodeExpression e1) (encodeExpression e2) →
          ¬KeyPerm (encodeExpression e1) (encodeExpression e2) →
          hashExpression e1 ≠ hashExpression e2) := by
  intro e1 e2 h1 h2
  constructor
  · intro hk
    rw [hashExpression, hashExpression, canonicalContent, canonicalContent,
      keyPerm_canon_eq _ _ h1 hk]
  · intro _ hnk heq
    rw [hashExpression, hashExpression, canonicalContent, canonicalContent] at heq
    have hc : canon (encodeExpression e1) = canon (encodeExpression e2) :=
      ser_inj _ _ (canon_wf _ h1) (canon_wf _ h2) heq
    exact hnk (keyPerm_of_canon_eq _ _ hc)

/-- C3 counterexample: the two serialize expressions whose `input` arrays
hold the same two mappings in swapped order — the mappings being key
reorderings of each other — differ only in the order of the elements of a
sequence (and are distinct raw values), yet the Hasher gives them identical
fingerprints, refuting the claim that array reorderings always hash
differently. -/
theorem c3_counterexample_array_reorder_same_hash :
    ArrPerm
      (encodeExpression (.serialize (.arr [.obj [("a", .num 1), ("b", .num 2)],
        .obj [("b", .num 2), ("a", .num 1)]])))
      (encodeExpression (.serialize (.arr [.obj [("b", .num 2), ("a", .num 1)],
        .obj [("a", .num 1), ("b", .num 2)]]))) ∧
    encodeExpression (.serialize (.arr [.obj [("a", .num 1), ("b", .num 2)],
        .obj [("b", .num 2), ("a", .num 1)]])) ≠
      encodeExpression (.serialize (.arr [.obj [("b", .num 2), ("a", .num 1)],
        .obj [("a", .num 1), ("b", .num 2)]])) ∧
    hashExpression (.serialize (.arr [.obj [("a", .num 1), ("b", .num 2)],
        .obj [("b", .num 2), ("a", .num 1)]])) =
      hashExpression (.serialize (.arr [.obj [("b", .num 2), ("a", .num 1)],
        .obj [("a", .num 1), ("b", .num 2)]])) := by
  refine ⟨?_, by decide, by decide⟩
  rw [encodeExpression, encodeExpression]
  refine ArrPerm.obj ?_
  refine ArrPermFields.cons (arrPerm_refl _) ?_
  refine ArrPermFields.cons ?_ ArrPermFields.nil
  refine ArrPerm.arr (arrPermList_of_ptw _ (fun x _ => arrPerm_refl x)) ?_
  exact List.Perm.swap (Glueson.obj [("b", .num 2), ("a", .num 1)])
    (Glueson.obj [("a", .num 1), ("b", .num 2)]) []

/-- Witness for C3 amended: a concrete key-reordered pair hashes equal, and
a concrete array-reordered pair (not key-reorder-equal) hashes different. -/
theorem c3_amended_hasher_canonicalizes_witness :
    wf (encodeExpression (.serialize (.obj [("a", .num 1), ("b", .num 2)]))) = true ∧
    wf (encodeExpression (.serialize (.obj [("b", .num 2), ("a", .num 1)]))) = true ∧
    hashExpression (.serialize (.obj [("a", .num 1), ("b", .num 2)])) =
      hashExpression (.serialize (.obj [("b", .num 2), ("a", .num 1)])) ∧
    wf (encodeExpression (.serialize (.arr [.num 1, .num 2]))) = true ∧
    wf (encodeExpression (.serialize (.arr [.num 2, .num 1]))) = true ∧
    hashExpression (.serialize (.arr [.num 1, .num 2])) ≠
      hashExpression (.serialize (.arr [.num 2, .num 1])) := by
  have t12 := c3_amended_hasher_canonicalizes
    (.serialize (.obj [("a", .num 1), ("b", .num 2)]))
    (.serialize (.obj [("b", .num 2), ("a", .num 1)])) (by decide) (by decide)
  have t34 := c3_amended_hasher_canonicalizes
    (.serialize (.arr [.num 1, .num 2]))
    (.serialize (.arr [.num 2, .num 1])) (by decide) (by decide)
  have hkp : KeyPerm
      (encodeExpression (.serialize (.obj [("a", .num 1), ("b", .num 2)])))
      (encodeExpression (.serialize (.obj [("b", .num 2), ("a", .num 1)]))) := by
    rw [encodeExpression, encodeExpression]
    refine KeyPerm.obj ?_ (List.Perm.refl _)
    refine KeyPermFields.cons (keyPerm_refl _) ?_
    refine KeyPermFields.cons ?_ KeyPermFields.nil
    refine KeyPerm.obj (keyPermFields_of_ptw _ (fun p _ => keyPerm_refl p.2)) ?_
    exact List.Perm.swap ("b", Glueson.num 2) ("a", Glueson.num 1) []
  have hne : hashExpression (GluesonExpression.serialize (.arr [.num 1, .num 2])) ≠
      hashExpression (GluesonExpression.serialize (.arr [.num 2, .num 1])) := by decide
  have hnk : ¬KeyPerm
      (encodeExpression (.serialize (.arr [.num 1, .num 2])))
      (encodeExpression (.serialize (.arr [.num 2, .num 1]))) :=
    fun hk => hne (t34.1 hk)
  have harr : ArrPerm
      (encodeExpression (.serialize (.arr [.num 1, .num 2])))
      (encodeExpression (.serialize (.arr [.num 2, .num 1]))) := by
    rw [encodeExpression, encodeExpression]
    refine ArrPerm.obj ?_
    refine ArrPermFields.cons (arrPerm_refl _) ?_
    refine ArrPermFields.cons ?_ ArrPermFields.nil
    refine ArrPerm.arr (arrPermList_of_ptw _ (fun x _ => arrPerm_refl x)) ?_
    exact List.Perm.swap (Glueson.num 2) (Glueson.num 1) []
  exact ⟨by decide, by decide, t12.1 hkp, by decide, by decide, t34.2 harr hnk⟩
